import Mathlib

set_option maxRecDepth 100000

/-!
Verification of the scriptura Discord bot's query-resolution and
content-normalization pipeline.

Shallow embedding of the JavaScript source:
* the api.bible client (`src/commands/utility/ping.js`, second document:
  `apiBibleFetch`, `apiBibleSearch`, `apiBibleGetPassage`,
  `passageContentToText`, `apiBibleResolveQuery`),
* the pagination helpers of `src/commands/verses/verse.js`
  (`formatRange`, `sendPaginatedSearch` page arithmetic),
* the preference store `src/helpers/user_preferences.js`,
* the daily-verse selector `src/helpers/daily_verse.js`,
* the embed builder `src/helpers/verse_embed.js`.

Modelling conventions:
* JavaScript strings are modelled as Lean `String` (sequences of characters;
  the repository only manipulates BMP text, where JS UTF-16 code units and
  characters coincide).
* JS `null`/`undefined` field accesses are modelled with `Option`.
* Truthiness of an optional string (`if (!x)`) is `jsTruthy`: present and
  non-empty.
* The network is an explicit oracle argument (`NetOutcome`): an `async`
  function awaiting `fetch` becomes a pure function of the oracle's value.
-/

namespace Scriptura

/-! ## JavaScript primitives -/

/-- JS truthiness of a possibly-absent string: `undefined`, `null` and `""`
are falsy. -/
def jsTruthy : Option String → Bool
  | none => false
  | some s => s ≠ ""

/-- JS `a ?? b` (nullish coalescing) on possibly-absent values: unlike `||`,
a present falsy value (such as an empty string) is kept. -/
def jsCoalesce {α : Type} (a : Option α) (b : Option α) : Option α :=
  match a with
  | some s => some s
  | none => b

/-- JS `a || b` where `a` is a possibly-absent string: empty strings fall
through to the default. -/
def jsOrDefault (a : Option String) (b : String) : String :=
  match a with
  | some s => if s = "" then b else s
  | none => b

/-- The JS `\s` character class restricted to the characters this codebase
can actually produce (ASCII whitespace plus NBSP); used by the regexes of
`passageContentToText` and by `String.prototype.trim`.  Stated on
code points: space, tab, newline, vertical tab, form feed, carriage
return, no-break space. -/
def isJsWs (c : Char) : Bool :=
  c.toNat = 32 || c.toNat = 9 || c.toNat = 10 || c.toNat = 13 ||
  c.toNat = 11 || c.toNat = 12 || c.toNat = 160

/-- The JS `\d` character class: `[0-9]`. -/
def isDigitCh (c : Char) : Bool :=
  48 ≤ c.toNat && c.toNat ≤ 57

/-- The JS `\w` (word) character class: `[A-Za-z0-9_]`. -/
def isWordChar (c : Char) : Bool :=
  (97 ≤ c.toNat && c.toNat ≤ 122) || (65 ≤ c.toNat && c.toNat ≤ 90) ||
  isDigitCh c || c.toNat = 95

/-! ## Content flattener: `passageContentToText`

The api.bible JSON content tree: every node is a text leaf or a tagged
container.  The walker reads only `node.type`, `node.text`, `node.name`,
`node.attrs.number`, `node.attrs.vid` and `node.items`, so the embedding
keeps exactly those fields (absent attributes are `none`). -/

inductive CNode where
  | text (t : String)
  | tag (name : String) (number : Option String) (vid : Option String)
        (items : List CNode)
deriving Repr

/-- The mutable closure state of `passageContentToText`:
the `chunks` array (stored in reverse: head = most recently pushed chunk)
and the `stripLeadingVerseNumber` flag. -/
structure FlattenState where
  chunks : List String
  strip : Bool
deriving Repr, DecidableEq

/-- Does a (non-empty) string end with a JS-whitespace character
(`/\s$/.test(last)`)? -/
def endsWithWs (s : String) : Bool :=
  match s.data.getLast? with
  | some c => isJsWs c
  | none => false

/-- Does a string end with a newline (`/\n$/.test(last)`)? -/
def endsWithNl (s : String) : Bool :=
  match s.data.getLast? with
  | some c => c = '\n'
  | none => false

/-- `ensureSpaceBeforeNextChunk`: if the last chunk exists, is truthy and
does not end in whitespace, append `" "` to it. -/
def ensureSpace (s : FlattenState) : FlattenState :=
  match s.chunks with
  | [] => s
  | last :: rest =>
      if last ≠ "" && !endsWithWs last then
        { s with chunks := (last ++ " ") :: rest }
      else s

/-- `ensureNewlineBeforeNextChunk`: if the last chunk exists, is truthy and
does not end in a newline, append `"\n"` to it. -/
def ensureNewline (s : FlattenState) : FlattenState :=
  match s.chunks with
  | [] => s
  | last :: rest =>
      if last ≠ "" && !endsWithNl last then
        { s with chunks := (last ++ "\n") :: rest }
      else s

/-- `cleaned.replace(/^\s*¶\s*/, "")`: strip one leading pilcrow together
with the whitespace around it; if there is no leading pilcrow the string is
unchanged (leading whitespace included). -/
def stripPilcrow (l : List Char) : List Char :=
  let r := l.dropWhile isJsWs
  if r.head? = some '¶' then r.tail.dropWhile isJsWs else l

/-- `cleaned.replace(/^\s*\d+\s*/, "")`: strip one leading run of digits
(with surrounding whitespace); if no digit follows the leading whitespace
the string is unchanged. -/
def stripLeadingDigits (l : List Char) : List Char :=
  let r := l.dropWhile isJsWs
  if r.head?.any isDigitCh then (r.tail.dropWhile isDigitCh).dropWhile isJsWs
  else l

/-- The `pushText` closure: drop falsy text, strip a leading pilcrow, strip
a duplicated leading verse number when the flag is set (always clearing the
flag), and push the result if non-empty. -/
def pushText (s : FlattenState) (t : String) : FlattenState :=
  if t = "" then s
  else
    let c1 := String.mk (stripPilcrow t.data)
    let c2 := if s.strip then String.mk (stripLeadingDigits c1.data) else c1
    { chunks := if c2 = "" then s.chunks else c2 :: s.chunks, strip := false }

/-- The cleaned string `pushText` would push for non-falsy input (the `c2`
of the source). -/
def pushedChunk (s : FlattenState) (t : String) : String :=
  if s.strip then String.mk (stripLeadingDigits (stripPilcrow t.data))
  else String.mk (stripPilcrow t.data)

/-- One `verse`-marker step of the walker: separator, `"[<number>] "` chunk,
and the dedup flag. -/
def verseMarkerStep (lineByLine : Bool) (s : FlattenState) (number : String) :
    FlattenState :=
  let s1 := if lineByLine then ensureNewline s else ensureSpace s
  let s2 := pushText s1 ("[" ++ number ++ "] ")
  { s2 with strip := true }

mutual

/-- The `walk` closure of `passageContentToText` on a single node. -/
def walkNode (lineByLine : Bool) (s : FlattenState) : CNode → FlattenState
  | .text t => pushText s t
  | .tag name number vid items =>
      let s1 :=
        if lineByLine && name = "para" && jsTruthy vid then ensureSpace s
        else s
      let s2 :=
        if name = "verse" && jsTruthy number then
          verseMarkerStep lineByLine s1 ((number).getD "")
        else s1
      walkList lineByLine s2 items

/-- The `walk` closure on an array of nodes (ordered fold). -/
def walkList (lineByLine : Bool) (s : FlattenState) : List CNode → FlattenState
  | [] => s
  | n :: ns => walkList lineByLine (walkNode lineByLine s n) ns

end

/-- `chunks.join("")` for the reversed chunk list. -/
def joinRev : List String → String
  | [] => ""
  | c :: cs => joinRev cs ++ c

/-- `.replace(/[ \t]{2,}/g, " ")`: collapse every run of two or more
spaces/tabs into a single space (a lone tab survives).  The `[ \t]`
class, on code points. -/
def isSpTab (c : Char) : Bool := c.toNat = 32 || c.toNat = 9

/-- Emit a finished run of spaces/tabs: a run of length two or more is
replaced by one space, a shorter run is kept as is. -/
def spaceRunEmit (buf : List Char) (rest : List Char) : List Char :=
  if 2 ≤ buf.length then ' ' :: rest else buf ++ rest

/-- Scanner for `.replace(/[ \t]{2,}/g, " ")`; `buf` is the space/tab run
currently being read (in order). -/
def collapseSpAux (buf : List Char) : List Char → List Char
  | [] => spaceRunEmit buf []
  | c :: cs =>
      if isSpTab c then collapseSpAux (buf ++ [c]) cs
      else spaceRunEmit buf (c :: collapseSpAux [] cs)

def collapseSpaceRuns (l : List Char) : List Char := collapseSpAux [] l

/-- Helper of `collapseNewlineRuns`: emit a finished whitespace run
(`/\s*\n\s*/g` replaces a maximal whitespace run containing a newline by a
single newline; runs without a newline are left alone). -/
def emitWsRun (buf : List Char) (rest : List Char) : List Char :=
  if buf.contains '\n' then '\n' :: rest else buf ++ rest

/-- Scanner for `.replace(/\s*\n\s*/g, "\n")`; `buf` is the whitespace run
currently being read (in order). -/
def collapseNlAux (buf : List Char) : List Char → List Char
  | [] => emitWsRun buf []
  | c :: cs =>
      if isJsWs c then collapseNlAux (buf ++ [c]) cs
      else emitWsRun buf (c :: collapseNlAux [] cs)

def collapseNewlineRuns (l : List Char) : List Char := collapseNlAux [] l

/-- Trailing-whitespace part of `String.prototype.trim`. -/
def dropTrailingWs : List Char → List Char
  | [] => []
  | c :: cs =>
      let r := dropTrailingWs cs
      if r = [] && isJsWs c then [] else c :: r

/-- `String.prototype.trim` on the whitespace the pipeline can produce. -/
def jsTrim (l : List Char) : List Char :=
  dropTrailingWs (l.dropWhile isJsWs)

/-- `.replace(/\n/g, " \n")`: put a space before every newline. -/
def expandNewlines : List Char → List Char
  | [] => []
  | c :: cs =>
      if c = '\n' then ' ' :: '\n' :: expandNewlines cs
      else c :: expandNewlines cs

/-- `passageContentToText(content, { lineByLine })` — flattens the api.bible
JSON content tree into display text (`src/commands/utility/ping.js`).
`none` models a falsy `content` argument (`if (!content) return ""`). -/
def passageContentToText (content : Option (List CNode)) (lineByLine : Bool) :
    String :=
  match content with
  | none => ""
  | some nodes =>
      let s := walkList lineByLine { chunks := [], strip := false } nodes
      let joined := joinRev s.chunks
      let t1 := collapseSpaceRuns joined.data
      let t2 := if lineByLine then collapseNewlineRuns t1 else t1
      let t3 := jsTrim t2
      let t4 := if lineByLine && t3 ≠ [] then expandNewlines t3 else t3
      if t4 = [] then "" else String.mk (t4 ++ [' '])

/-! ## The poetic-book pattern `/^psalms?\b/i` -/

/-- `\b` after the matched word: the next character must not be a word
character (or the string must end). -/
def psalmsBoundaryOk : List Char → Bool
  | [] => true
  | c :: _ => !isWordChar c

/-- `/^psalms?\b/i.test(s)`: case-insensitively, does `s` begin with
"psalm", an optional trailing "s", and a word boundary?  (When the text
continues with "s" followed by a word character, both regex alternatives
fail: after "psalms" the boundary fails, and backtracking to "psalm" puts
the boundary before the word character "s".) -/
def psalmsTest (s : String) : Bool :=
  match s.toLower.data with
  | 'p' :: 's' :: 'a' :: 'l' :: 'm' :: rest =>
      match rest with
      | 's' :: rest2 => psalmsBoundaryOk rest2
      | _ => psalmsBoundaryOk rest
  | _ => false

/-! ## Backend Client B: `apiBibleFetch`, `apiBibleSearch`,
`apiBibleGetPassage`

The HTTP layer is abstracted as an oracle (`NetOutcome`) describing what
awaiting `fetch` would yield; `apiBibleFetch` is then a pure function of
the oracle.  The `raw` field of `buildError` (the parsed error body) is not
modelled; no claim observes it. -/

/-- What the `fetch` call (with `res.json()`) would produce. -/
inductive NetOutcome (α : Type) where
  | httpOk (data : α)
  | httpErr (status : Nat) (apiMessage : Option String)
  | abortErr
  | netErr (errMessage : Option String)

/-- A `buildError(message, { status })` result (`error: true`). -/
structure ApiFailure where
  message : String
  status : Option Nat
deriving Repr, DecidableEq

/-- Outcome of an api.bible client call: `{error: true, ...}` or
`{error: false, data}`. -/
inductive FetchResult (α : Type) where
  | fail (e : ApiFailure)
  | ok (data : α)

/-- `apiBibleFetch(path, { queryParams, signal, timeoutMs })`.
`signalAborted` records whether the caller's `AbortSignal` fires before the
request completes; in that case the internal controller aborts and the
`fetch` promise rejects with an `AbortError`, exactly as when the
`setTimeout(() => controller.abort(), timeoutMs)` timeout fires, so the
`catch` block cannot tell the two apart. -/
def apiBibleFetch {α : Type} (apiKey : Option String) (signalAborted : Bool)
    (timeoutMs : Nat) (net : NetOutcome α) : FetchResult α :=
  if !jsTruthy apiKey then .fail ⟨"Missing API_BIBLE_KEY env var.", none⟩
  else
    let eff := if signalAborted then NetOutcome.abortErr else net
    match eff with
    | .httpOk d => .ok d
    | .httpErr st msg =>
        .fail ⟨jsOrDefault msg s!"api.bible request failed ({st})", some st⟩
    | .abortErr =>
        .fail ⟨s!"api.bible request timed out after {timeoutMs}ms", none⟩
    | .netErr m =>
        .fail ⟨jsOrDefault m "Network error while calling api.bible", none⟩

/-- `apiBibleSearch(bibleId, query, options)`: local validation, then the
`/bibles/{bibleId}/search` request. -/
def apiBibleSearch {α : Type} (apiKey : Option String)
    (bibleId query : Option String) (signalAborted : Bool) (timeoutMs : Nat)
    (net : NetOutcome α) : FetchResult α :=
  if !jsTruthy bibleId then .fail ⟨"Missing bibleId.", none⟩
  else if !jsTruthy query then .fail ⟨"Missing query.", none⟩
  else apiBibleFetch apiKey signalAborted timeoutMs net

/-- `apiBibleGetPassage(bibleId, passageId, options)`: local validation,
then the `/bibles/{bibleId}/passages/{passageId}` request (the
`displayOptions` become query parameters, which the network oracle
absorbs). -/
def apiBibleGetPassage {α : Type} (apiKey : Option String)
    (bibleId passageId : Option String) (signalAborted : Bool)
    (timeoutMs : Nat) (net : NetOutcome α) : FetchResult α :=
  if !jsTruthy bibleId then .fail ⟨"Missing bibleId.", none⟩
  else if !jsTruthy passageId then .fail ⟨"Missing passageId.", none⟩
  else apiBibleFetch apiKey signalAborted timeoutMs net

/-! ## Query resolver: `apiBibleResolveQuery` -/

/-- An element of `data.passages` in a search response (only the fields the
resolver reads). -/
structure PassageHit where
  id : Option String
  reference : Option String
  verseCount : Option Int
  copyright : Option String
deriving Repr, DecidableEq

/-- An element of `data.verses` in a search response (the resolver keeps
`id`, `reference`, `text` and drops everything else). -/
structure VerseHit where
  id : Option String
  reference : Option String
  text : Option String
deriving Repr, DecidableEq

/-- The `data` object of a search response; `passages`/`verses` are `none`
when absent or not arrays. -/
structure SearchData where
  passages : Option (List PassageHit)
  verses : Option (List VerseHit)
  query : Option String
  total : Option Int
  limit : Option Int
  offset : Option Int
deriving Repr, DecidableEq

/-- The `data` object of a passage response. -/
structure PassageData where
  id : Option String
  reference : Option String
  content : Option (List CNode)
  verseCount : Option Int
  copyright : Option String
deriving Repr

/-- The documented values of the resolver's `lineByLine` option. -/
inductive LineByLineOpt where
  | auto
  | on
  | off
deriving Repr, DecidableEq

/-- The resolver's typed outcome (`kind: 'passage' | 'search' | 'empty'`,
or an error object; `raw` echoes are not modelled). -/
inductive ResolvedResult where
  | fail (e : ApiFailure)
  | passage (query : Option String) (id : String) (reference : Option String)
            (verseCount : Option Int) (text : String)
            (copyright : Option String)
  | search (query : Option String) (total : Option Int) (limit : Option Int)
           (offset : Option Int) (verses : List VerseHit)
  | empty (query : Option String)
deriving Repr

/-- The `kind` discriminant string of a resolver result (error objects
carry no `kind` field). -/
def ResolvedResult.kindTag : ResolvedResult → Option String
  | .fail _ => none
  | .passage _ _ _ _ _ _ => some "passage"
  | .search _ _ _ _ _ => some "search"
  | .empty _ => some "empty"

/-- The `text` field of a passage result. -/
def ResolvedResult.passageText : ResolvedResult → Option String
  | .passage _ _ _ _ t _ => some t
  | _ => none

/-- The `useLineByLine` ternary of `apiBibleResolveQuery`:
`lineByLine === 'auto' ? isPsalm : lineByLine === 'on' ? true : false`. -/
def decideLineByLine (lineByLine : LineByLineOpt) (isPsalm : Bool) : Bool :=
  match lineByLine with
  | .auto => isPsalm
  | .on => true
  | .off => false

/-- `apiBibleResolveQuery(bibleId, query, options)`.
`searchNet` is the oracle for the initial search request (its payload
models `searchRes.data?.data`); `passageNet` gives, per passage id, the
oracle for the follow-up passage request (its payload models
`passageRes.data?.data`). -/
def apiBibleResolveQuery (apiKey : Option String)
    (bibleId query : Option String) (lineByLine : LineByLineOpt)
    (signalAborted : Bool) (timeoutMs : Nat)
    (searchNet : NetOutcome (Option SearchData))
    (passageNet : String → NetOutcome (Option PassageData)) :
    ResolvedResult :=
  match apiBibleSearch apiKey bibleId query signalAborted timeoutMs searchNet
    with
  | .fail e => .fail e
  | .ok dataOpt =>
      match dataOpt.bind SearchData.passages with
      | some (passageHit :: _) =>
          if !jsTruthy passageHit.id then
            .fail ⟨"Search returned a passage without an id.", none⟩
          else
            let pid := passageHit.id.getD ""
            match apiBibleGetPassage apiKey bibleId passageHit.id
                signalAborted timeoutMs (passageNet pid) with
            | .fail e => .fail e
            | .ok pdOpt =>
                let referenceCandidate :=
                  jsCoalesce (pdOpt.bind PassageData.reference)
                    (jsCoalesce passageHit.reference query)
                let isPsalm := psalmsTest (referenceCandidate.getD "")
                let useLineByLine := decideLineByLine lineByLine isPsalm
                let text :=
                  passageContentToText (pdOpt.bind PassageData.content)
                    useLineByLine
                .passage query ((pdOpt.bind PassageData.id).getD pid)
                  referenceCandidate
                  (jsCoalesce (pdOpt.bind PassageData.verseCount)
                    passageHit.verseCount)
                  text
                  (jsCoalesce (pdOpt.bind PassageData.copyright)
                    passageHit.copyright)
      | _ =>
          match dataOpt.bind SearchData.verses with
          | some (v :: vs) =>
              .search (jsCoalesce (dataOpt.bind SearchData.query) query)
                (dataOpt.bind SearchData.total)
                (dataOpt.bind SearchData.limit)
                (dataOpt.bind SearchData.offset)
                ((v :: vs).map fun w => ⟨w.id, w.reference, w.text⟩)
          | _ => .empty query

/-! ## Pager arithmetic (`src/commands/verses/verse.js`) -/

/-- `formatRange(start, count)`: human-readable 1-based range. -/
def formatRange (start count : Nat) : String :=
  if count = 0 then "0"
  else toString (start + 1) ++ "-" ++ toString (start + count)

/-- `totalPages = Math.max(1, Math.ceil(totalItems / pageSize))` in
`sendPaginatedSearch` (for a positive page size). -/
def computeTotalPages (totalItems pageSize : Nat) : Nat :=
  max 1 ((totalItems + pageSize - 1) / pageSize)

/-- The `Next` button target: `Math.min(totalPages - 1, page + 1)`. -/
def nextPageTarget (totalPages page : Nat) : Nat :=
  min (totalPages - 1) (page + 1)

/-! ## Preference store (`src/helpers/user_preferences.js`)

The MongoDB collection is modelled as a map from `userId` to the user's
document; `updatedAt` stamps are abstracted as a `now : Nat` argument. -/

/-- The optional `verseDisplay` sub-record as stored (fields individually
optional). -/
structure VerseDisplayStored where
  footnotes : Option Bool
  headings : Option String
  verseNumbers : Option Bool
  lineByLine : Option String
deriving Repr, DecidableEq

/-- A stored per-user preference document. -/
structure UserPrefDoc where
  preferredTranslation : Option String
  verseDisplay : Option VerseDisplayStored
  updatedAt : Option Nat
deriving Repr, DecidableEq

/-- The `user_preferences` collection keyed by user id (`none` = no
document for that user). -/
def PrefStore : Type := String → Option UserPrefDoc

/-- Fully resolved verse display preferences. -/
structure VerseDisplay where
  footnotes : Bool
  headings : String
  verseNumbers : Bool
  lineByLine : String
deriving Repr, DecidableEq

/-- `DEFAULT_VERSE_DISPLAY`. -/
def DEFAULT_VERSE_DISPLAY : VerseDisplay :=
  { footnotes := false, headings := "auto", verseNumbers := true,
    lineByLine := "auto" }

/-- `getPreferredTranslation(userId)`: `doc?.preferredTranslation ?? null`. -/
def getPreferredTranslation (store : PrefStore) (userId : String) :
    Option String :=
  (store userId).bind UserPrefDoc.preferredTranslation

/-- `getVerseDisplayPreferences(userId)`: spread of the stored sub-record
over `DEFAULT_VERSE_DISPLAY` (`{ ...DEFAULT_VERSE_DISPLAY, ...stored }`):
fields present in the stored record override the defaults, absent fields
fall back to them. -/
def getVerseDisplayPreferences (store : PrefStore) (userId : String) :
    VerseDisplay :=
  let stored := (store userId).bind UserPrefDoc.verseDisplay
  { footnotes :=
      (stored.bind VerseDisplayStored.footnotes).getD
        DEFAULT_VERSE_DISPLAY.footnotes,
    headings :=
      (stored.bind VerseDisplayStored.headings).getD
        DEFAULT_VERSE_DISPLAY.headings,
    verseNumbers :=
      (stored.bind VerseDisplayStored.verseNumbers).getD
        DEFAULT_VERSE_DISPLAY.verseNumbers,
    lineByLine :=
      (stored.bind VerseDisplayStored.lineByLine).getD
        DEFAULT_VERSE_DISPLAY.lineByLine }

/-- `resetVerseDisplayPreferences(userId)`:
`updateOne({userId}, { $unset: { verseDisplay: '' }, $set: { updatedAt } },
{ upsert: true })` — on the matched (or upserted) document the
`verseDisplay` field is removed and `updatedAt` set; nothing else of the
document, and no other user's document, is touched. -/
def resetVerseDisplayPreferences (store : PrefStore) (userId : String)
    (now : Nat) : PrefStore :=
  fun uid =>
    if uid = userId then
      match store userId with
      | some doc => some { doc with verseDisplay := none,
                                    updatedAt := some now }
      | none => some { preferredTranslation := none, verseDisplay := none,
                       updatedAt := some now }
    else store uid

/-! ## Daily verse selector (`src/helpers/daily_verse.js`)

`Date` values are modelled through the UTC getters the selector calls
(`getUTCFullYear`, `getUTCMonth`, `getUTCDate`) plus an unused time-of-day
component; `Date.UTC` is the ECMAScript `MakeDay` day count (the code
divides the millisecond difference of two midnights by 86400000, which is
exactly the day-count difference). -/

structure JsDate where
  utcFullYear : Int
  utcMonth : Nat
  utcDate : Int
  msWithinDay : Nat
deriving Repr, DecidableEq

/-- ECMAScript leap-year rule (as in `InLeapYear`/`DaysInYear`). -/
def isLeapYearJs (y : Int) : Bool :=
  (y % 4 = 0 && y % 100 ≠ 0) || y % 400 = 0

/-- ECMAScript `DayFromYear(y)` (floor divisions, as `Math.floor`). -/
def dayFromYear (y : Int) : Int :=
  365 * (y - 1970) + (y - 1969).fdiv 4 - (y - 1901).fdiv 100 +
    (y - 1601).fdiv 400

/-- Days in the year before month `m` (0-based month as from
`getUTCMonth`; months past December never arise from the getters). -/
def dayWithinYearUpToMonth (m : Nat) (leap : Bool) : Int :=
  let l : Int := if leap then 1 else 0
  match m with
  | 0 => 0
  | 1 => 31
  | 2 => 59 + l
  | 3 => 90 + l
  | 4 => 120 + l
  | 5 => 151 + l
  | 6 => 181 + l
  | 7 => 212 + l
  | 8 => 243 + l
  | 9 => 273 + l
  | 10 => 304 + l
  | 11 => 334 + l
  | _ => 365 + l

/-- `Date.UTC(y, m, d) / 86400000`: the ECMAScript `MakeDay` day count. -/
def makeDayUtc (y : Int) (m : Nat) (d : Int) : Int :=
  dayFromYear y + dayWithinYearUpToMonth m (isLeapYearJs y) + (d - 1)

/-- `getUtcDayOfYear(date)`: `Math.floor((Date.UTC(y, m, d) -
Date.UTC(y, 0, 1)) / 86400000)` — both instants are UTC midnights, so the
quotient is the difference of their day counts. -/
def getUtcDayOfYear (date : JsDate) : Int :=
  makeDayUtc date.utcFullYear date.utcMonth date.utcDate -
    makeDayUtc date.utcFullYear 0 1

/-- `getDailyVerseReference(date)` over a loaded verse list:
`verses[dayIndex % verses.length]` (`loadDailyVerses` guarantees a
non-empty list, so the truncated-modulo index is always in range). -/
def getDailyVerseReference (verses : List String) (date : JsDate) : String :=
  verses.getD ((getUtcDayOfYear date).tmod (verses.length : Int)).toNat ""

/-! ## Embed truncation (`src/helpers/verse_embed.js`) -/

/-- The `verse` argument of `verseEmbed` as a dynamically-typed value. -/
inductive JsVal where
  | str (s : String)
  | nullish
  | num (n : Int)
deriving Repr, DecidableEq

/-- `typeof verse === 'string' ? verse : String(verse ?? '')`. -/
def coerceVerseInput : JsVal → String
  | .str s => s
  | .nullish => ""
  | .num n => toString n

/-- The embed description computed by `verseEmbed`:
`description.length > 4096 ? description.slice(0, 4093) + "..." :
description`. -/
def verseEmbedDescription (verse : JsVal) : String :=
  let description := coerceVerseInput verse
  if description.length > 4096 then
    String.mk (description.data.take 4093) ++ "..."
  else description

/-! ## Counting apparatus for the line-by-line property -/

/-- After one digit: more digits then `]`. -/
def moreDigitsThenRB : List Char → Bool
  | [] => false
  | c :: cs => if c = ']' then true else if isDigitCh c then moreDigitsThenRB cs
               else false

/-- At least one digit, then `]`. -/
def digitsThenRB : List Char → Bool
  | [] => false
  | c :: cs => if isDigitCh c then moreDigitsThenRB cs else false

/-- Does the text begin with a bracketed verse number `[<digits>]`? -/
def startsBN : List Char → Bool
  | [] => false
  | c :: rest => if c = '[' then digitsThenRB rest else false

/-- Number of inner line starts (a character right after a newline) where a
bracketed verse number begins. -/
def gcTail : List Char → Nat
  | [] => 0
  | c :: rest => (if c = '\n' && startsBN rest then 1 else 0) + gcTail rest

/-- Number of line starts (position 0 included) where a bracketed verse
number begins. -/
def goodCount (l : List Char) : Nat :=
  (if startsBN l then 1 else 0) + gcTail l

/-- Split at newlines (the newline-separated segments of the output). -/
def splitNl : List Char → List (List Char)
  | [] => [[]]
  | c :: cs =>
      if c = '\n' then [] :: splitNl cs
      else
        match splitNl cs with
        | s :: ss => (c :: s) :: ss
        | [] => [[c]]

/-- How many newline-separated segments of `s` begin with a bracketed verse
number of the form `[<number>]`. -/
def goodSegmentCount (s : String) : Nat :=
  ((splitNl s.data).filter startsBN).length

mutual

/-- Number of verse-marker nodes (a `verse` tag with a truthy `number`
attribute) in a tree. -/
def countVerseMarkersN : CNode → Nat
  | .text _ => 0
  | .tag name number _ items =>
      (if name = "verse" && jsTruthy number then 1 else 0) +
        countVerseMarkersL items

def countVerseMarkersL : List CNode → Nat
  | [] => 0
  | n :: ns => countVerseMarkersN n + countVerseMarkersL ns

end

mutual

/-- Every verse marker of the tree carries a numeric (all-digits)
`number` attribute — the spec's data-model invariant for
`DisplayDocumentTree`. -/
def numbersOkN : CNode → Bool
  | .text _ => true
  | .tag name number _ items =>
      (if name = "verse" && jsTruthy number then
        (number.getD "").data.all isDigitCh
       else true) && numbersOkL items

def numbersOkL : List CNode → Bool
  | [] => true
  | n :: ns => numbersOkN n && numbersOkL ns

end

/-- A concrete one-user preference store used to exercise the preference
operations. -/
def c8SampleStore : PrefStore :=
  fun u =>
    if u = "alice" then
      some { preferredTranslation := some "KJV",
             verseDisplay := some { footnotes := some true,
                                    headings := none,
                                    verseNumbers := some false,
                                    lineByLine := some "on" },
             updatedAt := some 1 }
    else none

/-- Invariant of the walker state: the `chunks` array never contains an
empty string (`pushText` only pushes non-empty cleaned text). -/
def chunksOk (s : FlattenState) : Prop :=
  ∀ c ∈ s.chunks, c ≠ ""

/-- The string the chunks would currently join to. -/
def jData (s : FlattenState) : List Char :=
  (joinRev s.chunks).data

/-! # Theorems -/

/-- **C2**: for a document tree with a verse-marker node carrying numeric
attribute 5 immediately followed by the text leaf `"5 In the beginning"`,
`passageContentToText` emits exactly one `"[5]"` and the text with the
duplicated leading digit run removed: the output is
`"[5] In the beginning "` and contains a single `'5'` character. -/
theorem c2_verse_number_dedup :
    passageContentToText
      (some [CNode.tag "verse" (some "5") none [],
             CNode.text "5 In the beginning"]) false
      = "[5] In the beginning " ∧
    (passageContentToText
      (some [CNode.tag "verse" (some "5") none [],
             CNode.text "5 In the beginning"]) false).data.count '5' = 1 := by
  constructor
  · decide
  · decide

/-- **C7**: for `total = 23` and `pageSize = 10` the pager computes
`totalPages = 3`; the range-format helper at page 2 (start index 20,
3 entries) renders `"21-23"`; and the `Next` target from any page ≥ 2
clamps to page 2. -/
theorem c7_pagination_boundary :
    computeTotalPages 23 10 = 3 ∧ formatRange 20 3 = "21-23" ∧
    ∀ page : Nat, 2 ≤ page → nextPageTarget 3 page = 2 := by
  refine ⟨by decide, by decide, ?_⟩
  intro page h
  simp only [nextPageTarget]
  omega

/-- Witness for C7 at page 5. -/
theorem c7_pagination_boundary_witness :
    computeTotalPages 23 10 = 3 ∧ formatRange 20 3 = "21-23" ∧
    nextPageTarget 3 5 = 2 :=
  ⟨c7_pagination_boundary.1, c7_pagination_boundary.2.1,
   c7_pagination_boundary.2.2 5 (by decide)⟩

/-- **C10**: the embed description built by `verseEmbed` is at most 4096
characters: inputs longer than 4096 are cut to their first 4093 characters
plus `"..."`, shorter inputs pass through unchanged, and a nullish verse
value becomes the empty string. -/
theorem c10_embed_description_bounded :
    ∀ v : JsVal,
      (verseEmbedDescription v).length ≤ 4096 ∧
      (4096 < (coerceVerseInput v).length →
        verseEmbedDescription v =
          String.mk ((coerceVerseInput v).data.take 4093) ++ "...") ∧
      ((coerceVerseInput v).length ≤ 4096 →
        verseEmbedDescription v = coerceVerseInput v) ∧
      verseEmbedDescription JsVal.nullish = "" := by
  intro v
  refine ⟨?_, ?_, ?_, rfl⟩
  · unfold verseEmbedDescription
    by_cases h : 4096 < (coerceVerseInput v).length
    · simp only [h, if_pos, gt_iff_lt, if_true]
      rw [String.length_append]
      have : (String.mk ((coerceVerseInput v).data.take 4093)).length =
          ((coerceVerseInput v).data.take 4093).length := rfl
      rw [this, List.length_take]
      have hdots : ("..." : String).length = 3 := rfl
      rw [hdots]
      omega
    · simp only [gt_iff_lt, h, if_false]
      omega
  · intro h
    unfold verseEmbedDescription
    simp only [gt_iff_lt, h, if_true]
  · intro h
    unfold verseEmbedDescription
    have : ¬ 4096 < (coerceVerseInput v).length := by omega
    simp only [gt_iff_lt, this, if_false]

/-- Witness for C10: a 4097-character input is truncated to 4096
characters; a short input passes through. -/
theorem c10_embed_description_bounded_witness :
    (verseEmbedDescription (JsVal.str (String.mk (List.replicate 4097 'a')))).length
      ≤ 4096 ∧
    verseEmbedDescription (JsVal.str (String.mk (List.replicate 4097 'a')))
      = String.mk ((coerceVerseInput
          (JsVal.str (String.mk (List.replicate 4097 'a')))).data.take 4093)
        ++ "..." ∧
    verseEmbedDescription (JsVal.str "abc") = "abc" :=
  ⟨(c10_embed_description_bounded _).1,
   (c10_embed_description_bounded _).2.1 (by
      show 4096 < (List.replicate 4097 'a').length
      rw [List.length_replicate]
      omega),
   (c10_embed_description_bounded _).2.2.1 (by decide)⟩

/-- **C8**: `resetVerseDisplayPreferences` clears only the `verseDisplay`
sub-record of the user's document — `preferredTranslation` is unchanged and
other users' documents are untouched; after a reset
`getVerseDisplayPreferences` returns the documented defaults; and any
individually absent stored field resolves to its default. -/
theorem c8_reset_clears_only_display :
    ∀ (store : PrefStore) (userId : String) (now : Nat),
      getPreferredTranslation
          (resetVerseDisplayPreferences store userId now) userId
        = getPreferredTranslation store userId ∧
      getVerseDisplayPreferences
          (resetVerseDisplayPreferences store userId now) userId
        = DEFAULT_VERSE_DISPLAY ∧
      (∀ uid, uid ≠ userId →
        resetVerseDisplayPreferences store userId now uid = store uid) ∧
      (∀ (store2 : PrefStore) (uid : String),
        (((store2 uid).bind UserPrefDoc.verseDisplay).bind
            VerseDisplayStored.footnotes = none →
          (getVerseDisplayPreferences store2 uid).footnotes
            = DEFAULT_VERSE_DISPLAY.footnotes) ∧
        (((store2 uid).bind UserPrefDoc.verseDisplay).bind
            VerseDisplayStored.headings = none →
          (getVerseDisplayPreferences store2 uid).headings
            = DEFAULT_VERSE_DISPLAY.headings) ∧
        (((store2 uid).bind UserPrefDoc.verseDisplay).bind
            VerseDisplayStored.verseNumbers = none →
          (getVerseDisplayPreferences store2 uid).verseNumbers
            = DEFAULT_VERSE_DISPLAY.verseNumbers) ∧
        (((store2 uid).bind UserPrefDoc.verseDisplay).bind
            VerseDisplayStored.lineByLine = none →
          (getVerseDisplayPreferences store2 uid).lineByLine
            = DEFAULT_VERSE_DISPLAY.lineByLine)) := by
  intro store userId now
  refine ⟨?_, ?_, ?_, ?_⟩
  · unfold getPreferredTranslation resetVerseDisplayPreferences
    cases h : store userId <;> simp [h]
  · unfold getVerseDisplayPreferences resetVerseDisplayPreferences
    cases h : store userId <;> simp [h]
  · intro uid huid
    unfold resetVerseDisplayPreferences
    simp [huid]
  · intro store2 uid
    refine ⟨?_, ?_, ?_, ?_⟩ <;>
      · intro h
        unfold getVerseDisplayPreferences
        simp [h]

/-- Witness for C8 at a concrete one-user store. -/
theorem c8_reset_clears_only_display_witness :
    getPreferredTranslation
        (resetVerseDisplayPreferences c8SampleStore "alice" 2) "alice"
      = some "KJV" ∧
    getVerseDisplayPreferences
        (resetVerseDisplayPreferences c8SampleStore "alice" 2) "alice"
      = DEFAULT_VERSE_DISPLAY ∧
    resetVerseDisplayPreferences c8SampleStore "alice" 2 "bob" = none ∧
    (getVerseDisplayPreferences c8SampleStore "alice").headings
      = DEFAULT_VERSE_DISPLAY.headings := by
  have h := c8_reset_clears_only_display c8SampleStore "alice" 2
  refine ⟨?_, h.2.1, ?_, (h.2.2.2 c8SampleStore "alice").2.1 (by decide)⟩
  · rw [h.1]; decide
  · rw [h.2.2.1 "bob" (by decide)]; decide

/-- **C6**: each Backend B entry point validates its required arguments
locally, returning a `Failure` without any network activity (the result is
the same for every network oracle): `apiBibleSearch` without `bibleId` or
`query`, `apiBibleGetPassage` without `bibleId` or `passageId`, and
`apiBibleFetch` without the `API_BIBLE_KEY` credential. -/
theorem c6_local_validation :
    ∀ (α : Type) (apiKey bibleId query passageId : Option String)
      (signalAborted : Bool) (timeoutMs : Nat) (net : NetOutcome α),
      (jsTruthy bibleId = false →
        apiBibleSearch apiKey bibleId query signalAborted timeoutMs net
          = .fail ⟨"Missing bibleId.", none⟩) ∧
      (jsTruthy bibleId = true → jsTruthy query = false →
        apiBibleSearch apiKey bibleId query signalAborted timeoutMs net
          = .fail ⟨"Missing query.", none⟩) ∧
      (jsTruthy bibleId = false →
        apiBibleGetPassage apiKey bibleId passageId signalAborted timeoutMs
            net
          = .fail ⟨"Missing bibleId.", none⟩) ∧
      (jsTruthy bibleId = true → jsTruthy passageId = false →
        apiBibleGetPassage apiKey bibleId passageId signalAborted timeoutMs
            net
          = .fail ⟨"Missing passageId.", none⟩) ∧
      (jsTruthy apiKey = false →
        apiBibleFetch apiKey signalAborted timeoutMs net
          = .fail ⟨"Missing API_BIBLE_KEY env var.", none⟩) := by
  intro α apiKey bibleId query passageId signalAborted timeoutMs net
  refine ⟨?_, ?_, ?_, ?_, ?_⟩
  · intro h; simp [apiBibleSearch, h]
  · intro h1 h2; simp [apiBibleSearch, h1, h2]
  · intro h; simp [apiBibleGetPassage, h]
  · intro h1 h2; simp [apiBibleGetPassage, h1, h2]
  · intro h; simp [apiBibleFetch, h]

/-- Witness for C6: each validation failure at concrete arguments. -/
theorem c6_local_validation_witness :
    apiBibleSearch (some "k") none (some "John 3:16") false 10000
        (NetOutcome.httpOk ())
      = .fail ⟨"Missing bibleId.", none⟩ ∧
    apiBibleSearch (some "k") (some "bible-1") none false 10000
        (NetOutcome.httpOk ())
      = .fail ⟨"Missing query.", none⟩ ∧
    apiBibleGetPassage (some "k") none (some "JHN.3.16") false 10000
        (NetOutcome.httpOk ())
      = .fail ⟨"Missing bibleId.", none⟩ ∧
    apiBibleGetPassage (some "k") (some "bible-1") none false 10000
        (NetOutcome.httpOk ())
      = .fail ⟨"Missing passageId.", none⟩ ∧
    apiBibleFetch none false 10000 (NetOutcome.httpOk ())
      = .fail ⟨"Missing API_BIBLE_KEY env var.", none⟩ :=
  ⟨(c6_local_validation Unit (some "k") none (some "John 3:16") none false
      10000 (NetOutcome.httpOk ())).1 (by decide),
   (c6_local_validation Unit (some "k") (some "bible-1") none none false
      10000 (NetOutcome.httpOk ())).2.1 (by decide) (by decide),
   (c6_local_validation Unit (some "k") none none (some "JHN.3.16") false
      10000 (NetOutcome.httpOk ())).2.2.1 (by decide),
   (c6_local_validation Unit (some "k") (some "bible-1") none none false
      10000 (NetOutcome.httpOk ())).2.2.2.1 (by decide) (by decide),
   (c6_local_validation Unit none none none none false
      10000 (NetOutcome.httpOk ())).2.2.2.2 (by decide)⟩

/-- **C5 counterexample**: an external cancellation triggered before
completion is *not* reported distinctly from a timeout — at a concrete
input, the already-aborted call returns exactly the same `Failure` as a
timeout abort, carrying the timeout message. -/
theorem c5_counterexample :
    apiBibleFetch (some "key") true 10000
        (NetOutcome.httpOk (some ([] : List CNode)))
      = apiBibleFetch (some "key") false 10000
        (NetOutcome.abortErr : NetOutcome (Option (List CNode))) ∧
    apiBibleFetch (some "key") true 10000
        (NetOutcome.httpOk (some ([] : List CNode)))
      = .fail ⟨"api.bible request timed out after 10000ms", none⟩ :=
  ⟨rfl, rfl⟩

/-- **C5 amended**: if the caller's cancellation handle fires before a
Backend B request completes, `apiBibleFetch` aborts (the network outcome is
ignored) and returns a `Failure`; however, the failure carries the same
timeout message as a timeout abort (`"api.bible request timed out after
{timeoutMs}ms"`) — cancellation is not distinguished from timeout. -/
theorem c5_cancellation_reported_as_timeout :
    ∀ (α : Type) (apiKey : Option String) (timeoutMs : Nat)
      (net : NetOutcome α),
      jsTruthy apiKey = true →
      apiBibleFetch apiKey true timeoutMs net
        = .fail ⟨s!"api.bible request timed out after {timeoutMs}ms",
                 none⟩ := by
  intro α apiKey timeoutMs net h
  simp [apiBibleFetch, h]

/-- Witness for the amended C5. -/
theorem c5_cancellation_reported_as_timeout_witness :
    apiBibleFetch (some "key") true 10000 (NetOutcome.httpOk ())
      = .fail ⟨"api.bible request timed out after 10000ms", none⟩ :=
  c5_cancellation_reported_as_timeout Unit (some "key") 10000
    (NetOutcome.httpOk ()) (by decide)

/-- `DayFromYear(y + 1) - DayFromYear(y)` is 365 plus one for a leap year
`y` (the leap day sits between the two New Years). -/
theorem dayFromYear_succ (y : Int) :
    dayFromYear (y + 1)
      = dayFromYear y + 365 + (if isLeapYearJs y = true then 1 else 0) := by
  have h4 : ∀ a : Int, a.fdiv 4 = a / 4 :=
    fun a => Int.fdiv_eq_ediv a (by norm_num)
  have h100 : ∀ a : Int, a.fdiv 100 = a / 100 :=
    fun a => Int.fdiv_eq_ediv a (by norm_num)
  have h400 : ∀ a : Int, a.fdiv 400 = a / 400 :=
    fun a => Int.fdiv_eq_ediv a (by norm_num)
  unfold dayFromYear
  rw [h4, h4, h100, h100, h400, h400]
  by_cases h : isLeapYearJs y = true
  · rw [if_pos h]
    unfold isLeapYearJs at h
    simp only [Bool.or_eq_true, Bool.and_eq_true, decide_eq_true_eq,
      bne_iff_ne, ne_eq] at h
    omega
  · rw [if_neg h]
    unfold isLeapYearJs at h
    simp only [Bool.or_eq_true, Bool.and_eq_true, decide_eq_true_eq,
      bne_iff_ne, ne_eq, not_or, not_and, Decidable.not_not] at h
    omega

/-- **C9**: the daily selector is deterministic — any two `Date` values on
the same UTC calendar date select the same reference — and annual-cyclic:
two dates of consecutive years with the same month and day that are 365
days apart, the first year non-leap, select the same reference (for any
fixed verse list; the selector is day-of-year (UTC, 0-based) modulo the
list length by definition of `getDailyVerseReference`). -/
theorem c9_daily_selection :
    ∀ (verses : List String) (d1 d2 : JsDate),
      (d1.utcFullYear = d2.utcFullYear → d1.utcMonth = d2.utcMonth →
        d1.utcDate = d2.utcDate →
        getDailyVerseReference verses d1
          = getDailyVerseReference verses d2) ∧
      (d2.utcFullYear = d1.utcFullYear + 1 → d2.utcMonth = d1.utcMonth →
        d2.utcDate = d1.utcDate →
        makeDayUtc d2.utcFullYear d2.utcMonth d2.utcDate
          = makeDayUtc d1.utcFullYear d1.utcMonth d1.utcDate + 365 →
        isLeapYearJs d1.utcFullYear = false →
        getDailyVerseReference verses d1
          = getDailyVerseReference verses d2) := by
  intro verses d1 d2
  constructor
  · intro hy hm hd
    unfold getDailyVerseReference getUtcDayOfYear
    rw [hy, hm, hd]
  · intro hy hm hd hdiff hleap
    have hdoy : getUtcDayOfYear d1 = getUtcDayOfYear d2 := by
      unfold getUtcDayOfYear
      unfold makeDayUtc at hdiff ⊢
      have hsucc := dayFromYear_succ d1.utcFullYear
      rw [hleap] at hsucc
      simp only [Bool.false_eq_true, if_false] at hsucc
      rw [hy] at hdiff ⊢
      rw [hm] at hdiff ⊢
      rw [hd] at hdiff ⊢
      have h0 : ∀ b, dayWithinYearUpToMonth 0 b = 0 := fun b => rfl
      rw [h0, h0]
      omega
    unfold getDailyVerseReference
    rw [hdoy]

/-- Witness for C9: same calendar date with different times of day, and
the same June day of 2025 and 2026 (365 days apart, 2025 non-leap). -/
theorem c9_daily_selection_witness :
    getDailyVerseReference ["Genesis 1:1", "John 3:16", "Psalm 23:1"]
        { utcFullYear := 2025, utcMonth := 5, utcDate := 10,
          msWithinDay := 0 }
      = getDailyVerseReference ["Genesis 1:1", "John 3:16", "Psalm 23:1"]
        { utcFullYear := 2025, utcMonth := 5, utcDate := 10,
          msWithinDay := 999 } ∧
    getDailyVerseReference ["Genesis 1:1", "John 3:16", "Psalm 23:1"]
        { utcFullYear := 2025, utcMonth := 5, utcDate := 10,
          msWithinDay := 0 }
      = getDailyVerseReference ["Genesis 1:1", "John 3:16", "Psalm 23:1"]
        { utcFullYear := 2026, utcMonth := 5, utcDate := 10,
          msWithinDay := 0 } :=
  ⟨(c9_daily_selection ["Genesis 1:1", "John 3:16", "Psalm 23:1"]
      { utcFullYear := 2025, utcMonth := 5, utcDate := 10, msWithinDay := 0 }
      { utcFullYear := 2025, utcMonth := 5, utcDate := 10,
        msWithinDay := 999 }).1 rfl rfl rfl,
   (c9_daily_selection ["Genesis 1:1", "John 3:16", "Psalm 23:1"]
      { utcFullYear := 2025, utcMonth := 5, utcDate := 10, msWithinDay := 0 }
      { utcFullYear := 2026, utcMonth := 5, utcDate := 10,
        msWithinDay := 0 }).2 rfl rfl rfl (by decide) (by decide)⟩

/-- **C1**: whenever the backend search response contains both a non-empty
`passages` list and a non-empty `verses` list (the first passage carrying a
truthy id and the follow-up passage fetch succeeding),
`apiBibleResolveQuery` resolves to `kind = "passage"` and never
`kind = "search"` — the verse-level hits are discarded. -/
theorem c1_passage_precedence :
    ∀ (apiKey bibleId query : Option String) (lineByLine : LineByLineOpt)
      (timeoutMs : Nat) (sd : SearchData) (p : PassageHit)
      (ps : List PassageHit) (v : VerseHit) (vs : List VerseHit)
      (passageNet : String → NetOutcome (Option PassageData))
      (pd : Option PassageData),
      jsTruthy apiKey = true → jsTruthy bibleId = true →
      jsTruthy query = true →
      sd.passages = some (p :: ps) → sd.verses = some (v :: vs) →
      jsTruthy p.id = true →
      passageNet (p.id.getD "") = NetOutcome.httpOk pd →
      (apiBibleResolveQuery apiKey bibleId query lineByLine false timeoutMs
          (NetOutcome.httpOk (some sd)) passageNet).kindTag
        = some "passage" ∧
      (apiBibleResolveQuery apiKey bibleId query lineByLine false timeoutMs
          (NetOutcome.httpOk (some sd)) passageNet).kindTag
        ≠ some "search" := by
  intro apiKey bibleId query lineByLine timeoutMs sd p ps v vs passageNet pd
  intro hk hb hq hp hv hid hnet
  have hres : (apiBibleResolveQuery apiKey bibleId query lineByLine false
      timeoutMs (NetOutcome.httpOk (some sd)) passageNet).kindTag
      = some "passage" := by
    unfold apiBibleResolveQuery
    simp [apiBibleSearch, apiBibleGetPassage, apiBibleFetch, hk, hb, hq, hp,
      hid, hnet, ResolvedResult.kindTag]
  exact ⟨hres, by rw [hres]; simp⟩

/-- Witness for C1 at a concrete search response carrying both a passage
and a verse hit. -/
theorem c1_passage_precedence_witness :
    (apiBibleResolveQuery (some "k") (some "bible-1") (some "John 3:16")
        LineByLineOpt.auto false 10000
        (NetOutcome.httpOk (some
          { passages := some [{ id := some "JHN.3.16",
                                reference := some "John 3:16",
                                verseCount := some 1,
                                copyright := none }],
            verses := some [{ id := some "JHN.3.16",
                              reference := some "John 3:16",
                              text := some "For God so loved the world" }],
            query := some "John 3:16", total := some 1, limit := some 10,
            offset := some 0 }))
        (fun _ => NetOutcome.httpOk (some
          { id := some "JHN.3.16", reference := some "John 3:16",
            content := some [CNode.text "For God so loved the world"],
            verseCount := some 1, copyright := none }))).kindTag
      = some "passage" ∧
    (apiBibleResolveQuery (some "k") (some "bible-1") (some "John 3:16")
        LineByLineOpt.auto false 10000
        (NetOutcome.httpOk (some
          { passages := some [{ id := some "JHN.3.16",
                                reference := some "John 3:16",
                                verseCount := some 1,
                                copyright := none }],
            verses := some [{ id := some "JHN.3.16",
                              reference := some "John 3:16",
                              text := some "For God so loved the world" }],
            query := some "John 3:16", total := some 1, limit := some 10,
            offset := some 0 }))
        (fun _ => NetOutcome.httpOk (some
          { id := some "JHN.3.16", reference := some "John 3:16",
            content := some [CNode.text "For God so loved the world"],
            verseCount := some 1, copyright := none }))).kindTag
      ≠ some "search" :=
  c1_passage_precedence (some "k") (some "bible-1") (some "John 3:16")
    LineByLineOpt.auto 10000 _ _ [] _ [] _ _
    (by decide) (by decide) (by decide) rfl rfl (by decide) rfl

/-- **C3**: when `apiBibleResolveQuery` resolves a passage, the text is
flattened with the line-by-line flag decided as follows: with
`lineByLine = 'auto'` the flag is exactly `psalmsTest` of the resolved
reference (the `/^psalms?\b/i` test); `'on'` forces `true` and `'off'`
forces `false` regardless of the reference. -/
theorem c3_line_by_line_decision :
    ∀ (apiKey bibleId query : Option String) (lineByLine : LineByLineOpt)
      (timeoutMs : Nat) (sd : SearchData) (p : PassageHit)
      (ps : List PassageHit)
      (passageNet : String → NetOutcome (Option PassageData))
      (pd : Option PassageData),
      jsTruthy apiKey = true → jsTruthy bibleId = true →
      jsTruthy query = true →
      sd.passages = some (p :: ps) →
      jsTruthy p.id = true →
      passageNet (p.id.getD "") = NetOutcome.httpOk pd →
      ((apiBibleResolveQuery apiKey bibleId query lineByLine false timeoutMs
          (NetOutcome.httpOk (some sd)) passageNet).passageText
        = some (passageContentToText (pd.bind PassageData.content)
            (decideLineByLine lineByLine
              (psalmsTest ((jsCoalesce (pd.bind PassageData.reference)
                  (jsCoalesce p.reference query)).getD ""))))) ∧
      (∀ b, decideLineByLine LineByLineOpt.auto b = b) ∧
      (∀ b, decideLineByLine LineByLineOpt.on b = true) ∧
      (∀ b, decideLineByLine LineByLineOpt.off b = false) := by
  intro apiKey bibleId query lineByLine timeoutMs sd p ps passageNet pd
  intro hk hb hq hp hid hnet
  refine ⟨?_, fun b => rfl, fun b => rfl, fun b => rfl⟩
  unfold apiBibleResolveQuery
  simp [apiBibleSearch, apiBibleGetPassage, apiBibleFetch, hk, hb, hq, hp,
    hid, hnet, ResolvedResult.passageText]

/-- Witness for C3: a Psalm reference with `auto` yields the line-by-line
flattening. -/
theorem c3_line_by_line_decision_witness :
    (apiBibleResolveQuery (some "k") (some "bible-1") (some "Psalm 23")
        LineByLineOpt.auto false 10000
        (NetOutcome.httpOk (some
          { passages := some [{ id := some "PSA.23", reference := some "Psalm 23",
                                verseCount := some 6, copyright := none }],
            verses := none, query := some "Psalm 23", total := some 1,
            limit := some 10, offset := some 0 }))
        (fun _ => NetOutcome.httpOk (some
          { id := some "PSA.23", reference := some "Psalm 23",
            content := some [CNode.tag "verse" (some "1") none [],
                             CNode.text "The Lord is my shepherd"],
            verseCount := some 6, copyright := none }))).passageText
      = some (passageContentToText
          (some [CNode.tag "verse" (some "1") none [],
                 CNode.text "The Lord is my shepherd"])
          (decideLineByLine LineByLineOpt.auto (psalmsTest "Psalm 23"))) :=
  (c3_line_by_line_decision (some "k") (some "bible-1") (some "Psalm 23")
    LineByLineOpt.auto 10000
    { passages := some [{ id := some "PSA.23", reference := some "Psalm 23",
                          verseCount := some 6, copyright := none }],
      verses := none, query := some "Psalm 23", total := some 1,
      limit := some 10, offset := some 0 }
    { id := some "PSA.23", reference := some "Psalm 23",
      verseCount := some 6, copyright := none }
    []
    (fun _ => NetOutcome.httpOk (some
      { id := some "PSA.23", reference := some "Psalm 23",
        content := some [CNode.tag "verse" (some "1") none [],
                         CNode.text "The Lord is my shepherd"],
        verseCount := some 6, copyright := none }))
    (some { id := some "PSA.23", reference := some "Psalm 23",
            content := some [CNode.tag "verse" (some "1") none [],
                             CNode.text "The Lord is my shepherd"],
            verseCount := some 6, copyright := none })
    (by decide) (by decide) (by decide) rfl (by decide) rfl).1


/-! ## Character-class facts -/

theorem ws_of_sptab (c : Char) (h : isSpTab c = true) : isJsWs c = true := by
  unfold isSpTab at h
  unfold isJsWs
  simp only [Bool.or_eq_true, decide_eq_true_eq] at h ⊢
  omega

theorem not_sptab_of_not_ws (c : Char) (h : isJsWs c = false) :
    isSpTab c = false := by
  rcases hc : isSpTab c with _ | _
  · rfl
  · rw [ws_of_sptab c hc] at h
    exact absurd h (by simp)

theorem not_nl_of_not_ws (c : Char) (h : isJsWs c = false) : ¬ c = '\n' := by
  intro hc
  subst hc
  exact absurd h (by decide)

theorem not_ws_of_digit (c : Char) (h : isDigitCh c = true) :
    isJsWs c = false := by
  unfold isDigitCh at h
  unfold isJsWs
  simp only [Bool.and_eq_true, decide_eq_true_eq] at h
  simp only [Bool.or_eq_false_iff, decide_eq_false_iff_not]
  omega

theorem ne_rbracket_of_digit (c : Char) (h : isDigitCh c = true) :
    ¬ c = ']' := by
  intro hc
  subst hc
  exact absurd h (by decide)

theorem ne_lbracket_of_ws (c : Char) (h : isJsWs c = true) : ¬ c = '[' := by
  intro hc
  subst hc
  exact absurd h (by decide)

/-! ## Bracketed-verse-number machinery -/

theorem startsBN_cons (c : Char) (cs : List Char) :
    startsBN (c :: cs) = if c = '[' then digitsThenRB cs else false := rfl

theorem digitsThenRB_cons (c : Char) (cs : List Char) :
    digitsThenRB (c :: cs)
      = if isDigitCh c = true then moreDigitsThenRB cs else false := rfl

theorem moreRB_cons (c : Char) (cs : List Char) :
    moreDigitsThenRB (c :: cs)
      = if c = ']' then true
        else if isDigitCh c = true then moreDigitsThenRB cs else false := rfl

theorem gcTail_cons (c : Char) (cs : List Char) :
    gcTail (c :: cs)
      = (if (decide (c = '\n') && startsBN cs) = true then 1 else 0)
        + gcTail cs := rfl

theorem startsBN_ws_head (c : Char) (cs : List Char) (h : isJsWs c = true) :
    startsBN (c :: cs) = false := by
  rw [startsBN_cons, if_neg (ne_lbracket_of_ws c h)]

theorem moreRB_decomp (l : List Char) (h : moreDigitsThenRB l = true) :
    ∃ ds rest, l = ds ++ ']' :: rest ∧ ds.all isDigitCh = true := by
  induction l with
  | nil => exact absurd h (by decide)
  | cons c cs ih =>
      rw [moreRB_cons] at h
      by_cases hc : c = ']'
      · exact ⟨[], cs, by rw [hc]; rfl, rfl⟩
      · rw [if_neg hc] at h
        by_cases hd : isDigitCh c = true
        · rw [if_pos hd] at h
          obtain ⟨ds, rest, heq, hall⟩ := ih h
          exact ⟨c :: ds, rest, by rw [heq]; rfl,
            by simp [List.all_cons, hd, hall]⟩
        · rw [if_neg hd] at h
          exact absurd h (by simp)

theorem moreRB_intro (ds rest : List Char) (h : ds.all isDigitCh = true) :
    moreDigitsThenRB (ds ++ ']' :: rest) = true := by
  induction ds with
  | nil => rfl
  | cons d ds ih =>
      simp only [List.all_cons, Bool.and_eq_true] at h
      show moreDigitsThenRB (d :: (ds ++ ']' :: rest)) = true
      rw [moreRB_cons, if_neg (ne_rbracket_of_digit d h.1), if_pos h.1]
      exact ih h.2

theorem digitsThenRB_decomp (l : List Char) (h : digitsThenRB l = true) :
    ∃ d ds rest, l = d :: (ds ++ ']' :: rest) ∧ isDigitCh d = true ∧
      ds.all isDigitCh = true := by
  cases l with
  | nil => exact absurd h (by decide)
  | cons c cs =>
      rw [digitsThenRB_cons] at h
      by_cases hd : isDigitCh c = true
      · rw [if_pos hd] at h
        obtain ⟨ds, rest, heq, hall⟩ := moreRB_decomp cs h
        exact ⟨c, ds, rest, by rw [heq], hd, hall⟩
      · rw [if_neg hd] at h
        exact absurd h (by simp)

theorem digitsThenRB_intro (d : Char) (ds rest : List Char)
    (hd : isDigitCh d = true) (hds : ds.all isDigitCh = true) :
    digitsThenRB (d :: (ds ++ ']' :: rest)) = true := by
  rw [digitsThenRB_cons, if_pos hd]
  exact moreRB_intro ds rest hds

theorem startsBN_decomp (l : List Char) (h : startsBN l = true) :
    ∃ d ds rest, l = '[' :: d :: (ds ++ ']' :: rest) ∧ isDigitCh d = true ∧
      ds.all isDigitCh = true := by
  cases l with
  | nil => exact absurd h (by decide)
  | cons c cs =>
      rw [startsBN_cons] at h
      by_cases hc : c = '['
      · subst hc
        rw [if_pos rfl] at h
        obtain ⟨d, ds, rest, heq, hd, hds⟩ := digitsThenRB_decomp cs h
        exact ⟨d, ds, rest, by rw [heq], hd, hds⟩
      · rw [if_neg hc] at h
        exact absurd h (by simp)

theorem startsBN_intro (d : Char) (ds rest : List Char)
    (hd : isDigitCh d = true) (hds : ds.all isDigitCh = true) :
    startsBN ('[' :: d :: (ds ++ ']' :: rest)) = true := by
  rw [startsBN_cons, if_pos rfl]
  exact digitsThenRB_intro d ds rest hd hds

theorem moreRB_append (x t : List Char) (h : moreDigitsThenRB x = true) :
    moreDigitsThenRB (x ++ t) = true := by
  induction x with
  | nil => exact absurd h (by decide)
  | cons c cs ih =>
      rw [moreRB_cons] at h
      show moreDigitsThenRB (c :: (cs ++ t)) = true
      rw [moreRB_cons]
      by_cases hc : c = ']'
      · rw [if_pos hc]
      · rw [if_neg hc] at h ⊢
        by_cases hd : isDigitCh c = true
        · rw [if_pos hd] at h ⊢
          exact ih h
        · rw [if_neg hd] at h
          exact absurd h (by simp)

theorem startsBN_append (x t : List Char) (h : startsBN x = true) :
    startsBN (x ++ t) = true := by
  cases x with
  | nil => exact absurd h (by decide)
  | cons c cs =>
      rw [startsBN_cons] at h
      by_cases hc : c = '['
      · subst hc
        rw [if_pos rfl] at h
        show startsBN ('[' :: (cs ++ t)) = true
        rw [startsBN_cons, if_pos rfl]
        cases cs with
        | nil => exact absurd h (by decide)
        | cons c2 cs2 =>
            rw [digitsThenRB_cons] at h
            show digitsThenRB (c2 :: (cs2 ++ t)) = true
            rw [digitsThenRB_cons]
            by_cases hd : isDigitCh c2 = true
            · rw [if_pos hd] at h ⊢
              exact moreRB_append cs2 t h
            · rw [if_neg hd] at h
              exact absurd h (by simp)
      · rw [if_neg hc] at h
        exact absurd h (by simp)

theorem gcTail_append_mono (x t : List Char) : gcTail x ≤ gcTail (x ++ t) := by
  induction x with
  | nil => exact Nat.zero_le _
  | cons c cs ih =>
      show gcTail (c :: cs) ≤ gcTail (c :: (cs ++ t))
      rw [gcTail_cons, gcTail_cons]
      have hsb : (if (decide (c = '\n') && startsBN cs) = true then 1 else 0)
          ≤ (if (decide (c = '\n') && startsBN (cs ++ t)) = true then 1
             else 0) := by
        by_cases h : (decide (c = '\n') && startsBN cs) = true
        · rw [if_pos h]
          simp only [Bool.and_eq_true, decide_eq_true_eq] at h
          have hx := startsBN_append cs t h.2
          simp [h.1, hx]
        · rw [if_neg h]
          exact Nat.zero_le _
      omega

theorem goodCount_append_mono (x t : List Char) :
    goodCount x ≤ goodCount (x ++ t) := by
  unfold goodCount
  have hsb : (if startsBN x = true then 1 else 0)
      ≤ (if startsBN (x ++ t) = true then 1 else 0) := by
    by_cases h : startsBN x = true
    · rw [if_pos h, if_pos (startsBN_append x t h)]
    · rw [if_neg h]
      exact Nat.zero_le _
  have hgc := gcTail_append_mono x t
  omega

theorem gcTail_ge_right (x t : List Char) : gcTail t ≤ gcTail (x ++ t) := by
  induction x with
  | nil => exact Nat.le_refl _
  | cons c cs ih =>
      show gcTail t ≤ gcTail (c :: (cs ++ t))
      rw [gcTail_cons]
      omega

/-! ## Inserting a newline-preceded bracketed number -/

theorem gcTail_append_marker :
    ∀ (l : List Char), l.getLast? = some '\n' →
    ∀ (d : Char) (ds rest : List Char), isDigitCh d = true →
      ds.all isDigitCh = true →
      gcTail l + 1 ≤ gcTail (l ++ '[' :: d :: (ds ++ ']' :: rest)) := by
  intro l
  induction l with
  | nil => intro h; exact absurd h (by simp)
  | cons c cs ih =>
      intro hlast d ds rest hd hds
      cases cs with
      | nil =>
          have hc : c = '\n' := by simpa using hlast
          subst hc
          have h1 : gcTail ['\n'] = 0 := by decide
          rw [h1]
          show 0 + 1 ≤ gcTail ('\n' :: ('[' :: d :: (ds ++ ']' :: rest)))
          rw [gcTail_cons]
          have hsb := startsBN_intro d ds rest hd hds
          simp [hsb]
      | cons c2 cs2 =>
          have hlast2 : (c2 :: cs2).getLast? = some '\n' := by
            rwa [List.getLast?_cons_cons] at hlast
          have ihx := ih hlast2 d ds rest hd hds
          show gcTail (c :: ((c2 :: cs2) ++ _)) ≥ gcTail (c :: (c2 :: cs2)) + 1
          rw [gcTail_cons, gcTail_cons c (c2 :: cs2)]
          have hsb : (if (decide (c = '\n') && startsBN (c2 :: cs2)) = true
              then 1 else 0)
              ≤ (if (decide (c = '\n')
                  && startsBN ((c2 :: cs2) ++ '[' :: d :: (ds ++ ']' :: rest)))
                  = true then 1 else 0) := by
            by_cases h : (decide (c = '\n') && startsBN (c2 :: cs2)) = true
            · rw [if_pos h]
              simp only [Bool.and_eq_true, decide_eq_true_eq] at h
              have hx := startsBN_append (c2 :: cs2)
                ('[' :: d :: (ds ++ ']' :: rest)) h.2
              simp only [List.cons_append] at hx
              simp [h.1, hx]
            · rw [if_neg h]
              exact Nat.zero_le _
          omega

theorem goodCount_append_marker (l : List Char)
    (hl : l = [] ∨ l.getLast? = some '\n') (d : Char) (ds rest : List Char)
    (hd : isDigitCh d = true) (hds : ds.all isDigitCh = true) :
    goodCount l + 1 ≤ goodCount (l ++ '[' :: d :: (ds ++ ']' :: rest)) := by
  rcases hl with rfl | hlast
  · have hsb := startsBN_intro d ds (rest) hd hds
    unfold goodCount
    have h0 : gcTail ([] : List Char) = 0 := rfl
    have h1 : startsBN ([] : List Char) = false := rfl
    rw [List.nil_append, hsb, h0, h1]
    simp
  · unfold goodCount
    have h1 := gcTail_append_marker l hlast d ds rest hd hds
    have h2 : (if startsBN l = true then 1 else 0)
        ≤ (if startsBN (l ++ '[' :: d :: (ds ++ ']' :: rest)) = true
           then 1 else 0) := by
      by_cases h : startsBN l = true
      · rw [if_pos h, if_pos (startsBN_append l _ h)]
      · rw [if_neg h]
        exact Nat.zero_le _
    omega

/-! ## All-whitespace runs -/

theorem startsBN_nil : startsBN [] = false := rfl

theorem startsBN_allWs (x : List Char) (h : ∀ c ∈ x, isJsWs c = true) :
    startsBN x = false := by
  cases x with
  | nil => rfl
  | cons c cs => exact startsBN_ws_head c cs (h c (List.mem_cons_self c cs))

theorem gcTail_allWs (x : List Char) (h : ∀ c ∈ x, isJsWs c = true) :
    gcTail x = 0 := by
  induction x with
  | nil => rfl
  | cons c cs ih =>
      rw [gcTail_cons]
      have hcs : ∀ c' ∈ cs, isJsWs c' = true :=
        fun c' hm => h c' (List.mem_cons_of_mem _ hm)
      rw [ih hcs, startsBN_allWs cs hcs]
      simp

theorem goodCount_allWs (x : List Char) (h : ∀ c ∈ x, isJsWs c = true) :
    goodCount x = 0 := by
  unfold goodCount
  rw [startsBN_allWs x h, gcTail_allWs x h]
  simp

theorem gcTail_allWs_append_le (p t : List Char)
    (h : ∀ c ∈ p, isJsWs c = true) :
    gcTail (p ++ t)
      ≤ (if (p.contains '\n' && startsBN t) = true then 1 else 0)
        + gcTail t := by
  induction p with
  | nil =>
      simp only [List.nil_append]
      omega
  | cons c cs ih =>
      have hc := h c (List.mem_cons_self c cs)
      have hcs : ∀ c' ∈ cs, isJsWs c' = true :=
        fun c' hm => h c' (List.mem_cons_of_mem _ hm)
      have ihx := ih hcs
      show gcTail (c :: (cs ++ t)) ≤ _
      rw [gcTail_cons]
      cases cs with
      | nil =>
          simp only [List.nil_append]
          by_cases hcn : c = '\n' <;>
            by_cases hsbt : startsBN t = true <;>
              simp [hcn, hsbt, List.contains_cons]
      | cons c2 cs2 =>
          have hsbcs : startsBN ((c2 :: cs2) ++ t) = false := by
            show startsBN (c2 :: (cs2 ++ t)) = false
            exact startsBN_ws_head c2 _ (hcs c2 (List.mem_cons_self c2 cs2))
          simp only [List.cons_append] at hsbcs ihx ⊢
          simp only [hsbcs, Bool.and_false, Bool.false_eq_true, if_false]
          have hmono : (if ((c2 :: cs2).contains '\n' && startsBN t) = true
              then 1 else 0)
              ≤ (if ((c :: c2 :: cs2).contains '\n' && startsBN t) = true
                 then 1 else 0) := by
            by_cases hck : ((c2 :: cs2).contains '\n' && startsBN t) = true
            · rw [if_pos hck]
              simp only [Bool.and_eq_true] at hck
              have hin : (c :: c2 :: cs2).contains '\n' = true := by
                rw [List.contains_cons, hck.1, Bool.or_true]
              have hcond : ((c :: c2 :: cs2).contains '\n' && startsBN t)
                  = true := by rw [hin, hck.2]; rfl
              rw [if_pos hcond]
            · rw [if_neg hck]
              exact Nat.zero_le _
          omega

/-! ## Head-preserving transformations preserve bracketed numbers -/

theorem startsBN_of_consPres (f : List Char → List Char)
    (hf : ∀ c cs, isJsWs c = false → f (c :: cs) = c :: f cs)
    (l : List Char) (h : startsBN l = true) : startsBN (f l) = true := by
  obtain ⟨d, ds, rest, heq, hd, hds⟩ := startsBN_decomp l h
  subst heq
  rw [hf _ _ (by decide), hf _ _ (not_ws_of_digit d hd)]
  have hrun : ∀ (dsx : List Char), dsx.all isDigitCh = true →
      f (dsx ++ ']' :: rest) = dsx ++ (']' :: f rest) := by
    intro dsx
    induction dsx with
    | nil => intro _; simpa using hf ']' rest (by decide)
    | cons a as iha =>
        intro hall
        simp only [List.all_cons, Bool.and_eq_true] at hall
        show f (a :: (as ++ ']' :: rest)) = a :: (as ++ ']' :: f rest)
        rw [hf _ _ (not_ws_of_digit a hall.1), iha hall.2]
  rw [hrun ds hds]
  exact startsBN_intro d ds (f rest) hd hds

theorem collapseSpAux_cons (buf : List Char) (c : Char) (cs : List Char) :
    collapseSpAux buf (c :: cs)
      = if isSpTab c = true then collapseSpAux (buf ++ [c]) cs
        else spaceRunEmit buf (c :: collapseSpAux [] cs) := rfl

theorem collapseSpAux_nil (buf : List Char) :
    collapseSpAux buf [] = spaceRunEmit buf [] := rfl

theorem collapseNlAux_cons (buf : List Char) (c : Char) (cs : List Char) :
    collapseNlAux buf (c :: cs)
      = if isJsWs c = true then collapseNlAux (buf ++ [c]) cs
        else emitWsRun buf (c :: collapseNlAux [] cs) := rfl

theorem collapseNlAux_nil (buf : List Char) :
    collapseNlAux buf [] = emitWsRun buf [] := rfl

theorem dropTrailingWs_cons (c : Char) (cs : List Char) :
    dropTrailingWs (c :: cs)
      = if (decide (dropTrailingWs cs = []) && isJsWs c) = true then []
        else c :: dropTrailingWs cs := rfl

theorem expandNewlines_cons (c : Char) (cs : List Char) :
    expandNewlines (c :: cs)
      = if c = '\n' then ' ' :: '\n' :: expandNewlines cs
        else c :: expandNewlines cs := rfl

theorem collapseSp_consPres (c : Char) (cs : List Char)
    (h : isJsWs c = false) :
    collapseSpAux [] (c :: cs) = c :: collapseSpAux [] cs := by
  rw [collapseSpAux_cons, if_neg (by rw [not_sptab_of_not_ws c h]; simp)]
  unfold spaceRunEmit
  simp

theorem collapseNl_consPres (c : Char) (cs : List Char)
    (h : isJsWs c = false) :
    collapseNlAux [] (c :: cs) = c :: collapseNlAux [] cs := by
  rw [collapseNlAux_cons, if_neg (by rw [h]; simp)]
  unfold emitWsRun
  simp

theorem dTW_consPres (c : Char) (cs : List Char) (h : isJsWs c = false) :
    dropTrailingWs (c :: cs) = c :: dropTrailingWs cs := by
  rw [dropTrailingWs_cons, if_neg (by rw [h]; simp)]

theorem expand_consPres (c : Char) (cs : List Char) (h : isJsWs c = false) :
    expandNewlines (c :: cs) = c :: expandNewlines cs := by
  rw [expandNewlines_cons, if_neg (not_nl_of_not_ws c h)]

/-! ## Pointwise comparison helpers -/

theorem gcTail_le_goodCount (x : List Char) : gcTail x ≤ goodCount x :=
  Nat.le_add_left _ _

theorem gcTail_cons_le (c : Char) (cs R : List Char)
    (h1 : gcTail cs ≤ gcTail R)
    (h2 : startsBN cs = true → startsBN R = true) :
    gcTail (c :: cs) ≤ gcTail (c :: R) := by
  rw [gcTail_cons, gcTail_cons]
  by_cases h : (decide (c = '\n') && startsBN cs) = true
  · have hx : (decide (c = '\n') && startsBN R) = true := by
      simp only [Bool.and_eq_true] at h ⊢
      exact ⟨h.1, h2 h.2⟩
    rw [if_pos h, if_pos hx]
    omega
  · rw [if_neg h]
    have : (0:Nat) ≤ if (decide (c = '\n') && startsBN R) = true then 1
        else 0 := Nat.zero_le _
    omega

theorem goodCount_le_of (x y : List Char) (h1 : gcTail x ≤ gcTail y)
    (h2 : startsBN x = true → startsBN y = true) :
    goodCount x ≤ goodCount y := by
  unfold goodCount
  by_cases h : startsBN x = true
  · rw [if_pos h, if_pos (h2 h)]
    omega
  · rw [if_neg h]
    have : (0:Nat) ≤ if startsBN y = true then 1 else 0 := Nat.zero_le _
    omega

/-! ## `collapseSpaceRuns` only increases the segment count -/

theorem collapseSp_master : ∀ (l : List Char), ∀ (buf : List Char),
    (∀ c ∈ buf, isSpTab c = true) →
    gcTail l ≤ gcTail (collapseSpAux buf l) ∧
    (if buf = [] then goodCount l else gcTail l)
      ≤ goodCount (collapseSpAux buf l) := by
  intro l
  induction l with
  | nil =>
      intro buf hbuf
      rw [collapseSpAux_nil]
      refine ⟨Nat.zero_le _, ?_⟩
      by_cases hb : buf = []
      · rw [if_pos hb]
        exact Nat.zero_le _
      · rw [if_neg hb]
        exact Nat.zero_le _
  | cons c cs ih =>
      intro buf hbuf
      rw [collapseSpAux_cons]
      by_cases hsp : isSpTab c = true
      · rw [if_pos hsp]
        have hbuf2 : ∀ x ∈ buf ++ [c], isSpTab x = true := by
          intro x hx
          rcases List.mem_append.mp hx with h1 | h1
          · exact hbuf x h1
          · simp only [List.mem_singleton] at h1
            subst h1
            exact hsp
        have ihx := ih (buf ++ [c]) hbuf2
        have hcn : ¬ c = '\n' := by
          intro hc
          subst hc
          exact absurd hsp (by decide)
        have hgcl : gcTail (c :: cs) = gcTail cs := by
          rw [gcTail_cons]
          simp [hcn]
        have hne : ¬ (buf ++ [c] = []) := by simp
        have ihg := ihx.2
        rw [if_neg hne] at ihg
        refine ⟨by rw [hgcl]; exact ihx.1, ?_⟩
        by_cases hb : buf = []
        · rw [if_pos hb]
          have hsb0 : startsBN (c :: cs) = false :=
            startsBN_ws_head c cs (ws_of_sptab c hsp)
          have hgood : goodCount (c :: cs) = gcTail cs := by
            unfold goodCount
            rw [hsb0, hgcl]
            simp
          rw [hgood]
          exact ihg
        · rw [if_neg hb, hgcl]
          exact ihg
      · rw [if_neg hsp]
        have ihx := ih [] (fun x hx => absurd hx (List.not_mem_nil x))
        have ihR1 : gcTail cs ≤ gcTail (collapseSpAux [] cs) := ihx.1
        have ihR2 : goodCount cs ≤ goodCount (collapseSpAux [] cs) := by
          simpa using ihx.2
        have heq : collapseSpAux [] (c :: cs) = c :: collapseSpAux [] cs := by
          rw [collapseSpAux_cons, if_neg hsp]
          unfold spaceRunEmit
          simp
        have hsbR : startsBN cs = true →
            startsBN (collapseSpAux [] cs) = true :=
          fun h => startsBN_of_consPres (fun x => collapseSpAux [] x)
            (fun a as ha => collapseSp_consPres a as ha) cs h
        have hsbpres : startsBN (c :: cs) = true →
            startsBN (c :: collapseSpAux [] cs) = true := by
          intro h
          have hx := startsBN_of_consPres (fun x => collapseSpAux [] x)
            (fun a as ha => collapseSp_consPres a as ha) (c :: cs) h
          have hx2 : startsBN (collapseSpAux [] (c :: cs)) = true := hx
          rwa [heq] at hx2
        have hgc1 : gcTail (c :: cs) ≤ gcTail (c :: collapseSpAux [] cs) :=
          gcTail_cons_le c cs _ ihR1 hsbR
        have hgood1 : goodCount (c :: cs)
            ≤ goodCount (c :: collapseSpAux [] cs) :=
          goodCount_le_of _ _ hgc1 hsbpres
        unfold spaceRunEmit
        by_cases hlen : 2 ≤ buf.length
        · rw [if_pos hlen]
          have hb : ¬ buf = [] := by
            intro h
            subst h
            simp at hlen
          have hsp2 : gcTail (c :: collapseSpAux [] cs)
              ≤ gcTail (' ' :: c :: collapseSpAux [] cs) := by
            rw [gcTail_cons ' ' (c :: collapseSpAux [] cs)]
            simp
          constructor
          · omega
          · rw [if_neg hb]
            have h2 := gcTail_le_goodCount (' ' :: c :: collapseSpAux [] cs)
            omega
        · rw [if_neg hlen]
          have hger := gcTail_ge_right buf (c :: collapseSpAux [] cs)
          constructor
          · omega
          · by_cases hb : buf = []
            · subst hb
              rw [if_pos rfl]
              simpa using hgood1
            · rw [if_neg hb]
              have h3 := gcTail_le_goodCount (buf ++ c :: collapseSpAux [] cs)
              omega

theorem collapseSpaceRuns_good (l : List Char) :
    goodCount l ≤ goodCount (collapseSpaceRuns l) := by
  have h := (collapseSp_master l [] (fun x hx => absurd hx
    (List.not_mem_nil x))).2
  rw [if_pos rfl] at h
  exact h

/-! ## `collapseNewlineRuns` only increases the segment count -/

theorem collapseNl_gcTail : ∀ (l : List Char), ∀ (buf : List Char),
    (∀ c ∈ buf, isJsWs c = true) →
    (if (buf.contains '\n' && startsBN l) = true then 1 else 0) + gcTail l
      ≤ gcTail (collapseNlAux buf l) := by
  intro l
  induction l with
  | nil =>
      intro buf hbuf
      rw [collapseNlAux_nil]
      rw [startsBN_nil]
      simp only [Bool.and_false, Bool.false_eq_true, if_false]
      exact Nat.zero_le _
  | cons c cs ih =>
      intro buf hbuf
      rw [collapseNlAux_cons]
      by_cases hws : isJsWs c = true
      · rw [if_pos hws]
        have hbuf2 : ∀ x ∈ buf ++ [c], isJsWs x = true := by
          intro x hx
          rcases List.mem_append.mp hx with h1 | h1
          · exact hbuf x h1
          · simp only [List.mem_singleton] at h1
            subst h1
            exact hws
        have ihx := ih (buf ++ [c]) hbuf2
        have hsb0 : startsBN (c :: cs) = false := startsBN_ws_head c cs hws
        rw [hsb0]
        simp only [Bool.and_false, Bool.false_eq_true, if_false]
        rw [gcTail_cons]
        have hmono : (if (decide (c = '\n') && startsBN cs) = true then 1
            else 0)
            ≤ (if ((buf ++ [c]).contains '\n' && startsBN cs) = true then 1
               else 0) := by
          by_cases hk : (decide (c = '\n') && startsBN cs) = true
          · rw [if_pos hk]
            simp only [Bool.and_eq_true, decide_eq_true_eq] at hk
            have hcon : (buf ++ [c]).contains '\n' = true := by
              rw [hk.1]
              simp
            rw [hcon, hk.2]
            simp
          · rw [if_neg hk]
            exact Nat.zero_le _
        omega
      · rw [if_neg hws]
        have hwsf : isJsWs c = false := by
          rcases h : isJsWs c with _ | _
          · rfl
          · exact absurd h hws
        have ihx := ih [] (fun x hx => absurd hx (List.not_mem_nil x))
        have ihR1 : gcTail cs ≤ gcTail (collapseNlAux [] cs) := by
          have hcon0 : (List.contains ([] : List Char) '\n') = false := rfl
          rw [hcon0] at ihx
          simpa using ihx
        have heq : collapseNlAux [] (c :: cs) = c :: collapseNlAux [] cs :=
          collapseNl_consPres c cs hwsf
        have hsbR : startsBN cs = true →
            startsBN (collapseNlAux [] cs) = true :=
          fun h => startsBN_of_consPres (fun x => collapseNlAux [] x)
            (fun a as ha => collapseNl_consPres a as ha) cs h
        have hsbpres : startsBN (c :: cs) = true →
            startsBN (c :: collapseNlAux [] cs) = true := by
          intro h
          have hx := startsBN_of_consPres (fun x => collapseNlAux [] x)
            (fun a as ha => collapseNl_consPres a as ha) (c :: cs) h
          have hx2 : startsBN (collapseNlAux [] (c :: cs)) = true := hx
          rwa [heq] at hx2
        have hgc1 : gcTail (c :: cs) ≤ gcTail (c :: collapseNlAux [] cs) :=
          gcTail_cons_le c cs _ ihR1 hsbR
        unfold emitWsRun
        by_cases hcon : buf.contains '\n' = true
        · rw [if_pos hcon, hcon]
          rw [gcTail_cons '\n' (c :: collapseNlAux [] cs)]
          have hnl : (decide ('\n' = '\n')
              && startsBN (c :: collapseNlAux [] cs))
              = startsBN (c :: collapseNlAux [] cs) := by simp
          rw [hnl]
          by_cases hsb : startsBN (c :: cs) = true
          · rw [hsb, hsbpres hsb]
            simp only [Bool.and_self, if_pos rfl]
            omega
          · have hsbf : startsBN (c :: cs) = false := by
              rcases hx : startsBN (c :: cs) with _ | _
              · rfl
              · exact absurd hx hsb
            rw [hsbf]
            simp only [Bool.and_false, Bool.false_eq_true, if_false]
            by_cases hy : startsBN (c :: collapseNlAux [] cs) = true
            · rw [hy]
              simp only [if_pos]
              omega
            · have hyf : startsBN (c :: collapseNlAux [] cs) = false := by
                rcases hz : startsBN (c :: collapseNlAux [] cs) with _ | _
                · rfl
                · exact absurd hz hy
              rw [hyf]
              simp only [Bool.false_eq_true, if_false]
              omega
        · have hconf : buf.contains '\n' = false := by
            rcases hz : buf.contains '\n' with _ | _
            · rfl
            · exact absurd hz hcon
          rw [if_neg hcon, hconf]
          simp only [Bool.false_and, Bool.false_eq_true, if_false]
          have hger := gcTail_ge_right buf (c :: collapseNlAux [] cs)
          omega

theorem collapseNl_good : ∀ (l : List Char), ∀ (buf : List Char),
    (∀ c ∈ buf, isJsWs c = true) →
    (if buf = [] then goodCount l
     else (if (buf.contains '\n' && startsBN l) = true then 1 else 0)
       + gcTail l)
      ≤ goodCount (collapseNlAux buf l) := by
  intro l
  induction l with
  | nil =>
      intro buf hbuf
      rw [collapseNlAux_nil]
      by_cases hb : buf = []
      · rw [if_pos hb]
        exact Nat.zero_le _
      · rw [if_neg hb, startsBN_nil]
        simp only [Bool.and_false, Bool.false_eq_true, if_false]
        exact Nat.zero_le _
  | cons c cs ih =>
      intro buf hbuf
      rw [collapseNlAux_cons]
      by_cases hws : isJsWs c = true
      · rw [if_pos hws]
        have hbuf2 : ∀ x ∈ buf ++ [c], isJsWs x = true := by
          intro x hx
          rcases List.mem_append.mp hx with h1 | h1
          · exact hbuf x h1
          · simp only [List.mem_singleton] at h1
            subst h1
            exact hws
        have ihx := ih (buf ++ [c]) hbuf2
        have hne : ¬ (buf ++ [c] = []) := by simp
        rw [if_neg hne] at ihx
        have hsb0 : startsBN (c :: cs) = false := startsBN_ws_head c cs hws
        have hmono : (if (decide (c = '\n') && startsBN cs) = true then 1
            else 0)
            ≤ (if ((buf ++ [c]).contains '\n' && startsBN cs) = true then 1
               else 0) := by
          by_cases hk : (decide (c = '\n') && startsBN cs) = true
          · rw [if_pos hk]
            simp only [Bool.and_eq_true, decide_eq_true_eq] at hk
            have hcon : (buf ++ [c]).contains '\n' = true := by
              rw [hk.1]
              simp
            rw [hcon, hk.2]
            simp
          · rw [if_neg hk]
            exact Nat.zero_le _
        by_cases hb : buf = []
        · rw [if_pos hb]
          have hgood : goodCount (c :: cs)
              = (if (decide (c = '\n') && startsBN cs) = true then 1 else 0)
                + gcTail cs := by
            unfold goodCount
            rw [hsb0, gcTail_cons]
            simp
          rw [hgood]
          omega
        · rw [if_neg hb, hsb0]
          simp only [Bool.and_false, Bool.false_eq_true, if_false]
          rw [gcTail_cons]
          omega
      · rw [if_neg hws]
        have hwsf : isJsWs c = false := by
          rcases h : isJsWs c with _ | _
          · rfl
          · exact absurd h hws
        have ihR1 : gcTail cs ≤ gcTail (collapseNlAux [] cs) := by
          have hx := collapseNl_gcTail cs []
            (fun x hx => absurd hx (List.not_mem_nil x))
          have hcon0 : (List.contains ([] : List Char) '\n') = false := rfl
          rw [hcon0] at hx
          simpa using hx
        have heq : collapseNlAux [] (c :: cs) = c :: collapseNlAux [] cs :=
          collapseNl_consPres c cs hwsf
        have hsbR : startsBN cs = true →
            startsBN (collapseNlAux [] cs) = true :=
          fun h => startsBN_of_consPres (fun x => collapseNlAux [] x)
            (fun a as ha => collapseNl_consPres a as ha) cs h
        have hsbpres : startsBN (c :: cs) = true →
            startsBN (c :: collapseNlAux [] cs) = true := by
          intro h
          have hx := startsBN_of_consPres (fun x => collapseNlAux [] x)
            (fun a as ha => collapseNl_consPres a as ha) (c :: cs) h
          have hx2 : startsBN (collapseNlAux [] (c :: cs)) = true := hx
          rwa [heq] at hx2
        have hgc1 : gcTail (c :: cs) ≤ gcTail (c :: collapseNlAux [] cs) :=
          gcTail_cons_le c cs _ ihR1 hsbR
        have hgood1 : goodCount (c :: cs)
            ≤ goodCount (c :: collapseNlAux [] cs) :=
          goodCount_le_of _ _ hgc1 hsbpres
        unfold emitWsRun
        by_cases hcon : buf.contains '\n' = true
        · rw [if_pos hcon]
          have hb : ¬ buf = [] := by
            intro h
            subst h
            exact absurd hcon (by decide)
          rw [if_neg hb, hcon]
          have hgoodout : goodCount ('\n' :: c :: collapseNlAux [] cs)
              = (if startsBN (c :: collapseNlAux [] cs) = true then 1 else 0)
                + gcTail (c :: collapseNlAux [] cs) := by
            unfold goodCount
            rw [startsBN_ws_head '\n' _ (by decide)]
            rw [gcTail_cons '\n' (c :: collapseNlAux [] cs)]
            simp
          rw [hgoodout]
          have hif : (if (true && startsBN (c :: cs)) = true then 1 else 0)
              ≤ (if startsBN (c :: collapseNlAux [] cs) = true then 1
                 else 0) := by
            by_cases hsb : startsBN (c :: cs) = true
            · rw [hsb, hsbpres hsb]
              simp
            · have hsbf : startsBN (c :: cs) = false := by
                rcases hx : startsBN (c :: cs) with _ | _
                · rfl
                · exact absurd hx hsb
              rw [hsbf]
              simp only [Bool.and_false, Bool.false_eq_true, if_false]
              exact Nat.zero_le _
          omega
        · have hconf : buf.contains '\n' = false := by
            rcases hz : buf.contains '\n' with _ | _
            · rfl
            · exact absurd hz hcon
          rw [if_neg hcon]
          by_cases hb : buf = []
          · subst hb
            rw [if_pos rfl]
            simpa using hgood1
          · rw [if_neg hb, hconf]
            simp only [Bool.false_and, Bool.false_eq_true, if_false]
            have hger := gcTail_ge_right buf (c :: collapseNlAux [] cs)
            have hgg := gcTail_le_goodCount (buf ++ c :: collapseNlAux [] cs)
            omega

theorem collapseNewlineRuns_good (l : List Char) :
    goodCount l ≤ goodCount (collapseNewlineRuns l) := by
  have h := collapseNl_good l [] (fun x hx => absurd hx (List.not_mem_nil x))
  rw [if_pos rfl] at h
  exact h

/-! ## Trimming and newline expansion only increase the segment count -/

theorem dropWhileWs_good : ∀ (l : List Char),
    goodCount l ≤ goodCount (l.dropWhile isJsWs) := by
  intro l
  induction l with
  | nil => exact Nat.le_refl _
  | cons c cs ih =>
      rw [List.dropWhile_cons]
      by_cases hws : isJsWs c = true
      · rw [if_pos hws]
        have hgood : goodCount (c :: cs)
            = (if (decide (c = '\n') && startsBN cs) = true then 1 else 0)
              + gcTail cs := by
          unfold goodCount
          rw [startsBN_ws_head c cs hws, gcTail_cons]
          simp
        rw [hgood]
        have hle : (if (decide (c = '\n') && startsBN cs) = true then 1
            else 0) + gcTail cs ≤ goodCount cs := by
          unfold goodCount
          by_cases hk : (decide (c = '\n') && startsBN cs) = true
          · rw [if_pos hk]
            simp only [Bool.and_eq_true] at hk
            rw [hk.2]
            simp
          · rw [if_neg hk]
            have : (0:Nat) ≤ if startsBN cs = true then 1 else 0 :=
              Nat.zero_le _
            omega
        omega
      · rw [if_neg hws]

theorem dTW_nil_allWs : ∀ (l : List Char), dropTrailingWs l = [] →
    ∀ c ∈ l, isJsWs c = true := by
  intro l
  induction l with
  | nil => intro _ c hc; exact absurd hc (List.not_mem_nil c)
  | cons c cs ih =>
      intro h x hx
      rw [dropTrailingWs_cons] at h
      by_cases hcond : (decide (dropTrailingWs cs = []) && isJsWs c)
          = true
      · simp only [Bool.and_eq_true, decide_eq_true_eq] at hcond
        rcases List.mem_cons.mp hx with h1 | h1
        · subst h1
          exact hcond.2
        · exact ih hcond.1 x h1
      · rw [if_neg hcond] at h
        exact absurd h (by simp)

theorem dTW_master : ∀ (l : List Char),
    gcTail l ≤ gcTail (dropTrailingWs l) ∧
    goodCount l ≤ goodCount (dropTrailingWs l) := by
  intro l
  induction l with
  | nil => exact ⟨Nat.le_refl _, Nat.le_refl _⟩
  | cons c cs ih =>
      rw [dropTrailingWs_cons]
      by_cases hcond : (decide (dropTrailingWs cs = []) && isJsWs c) = true
      · rw [if_pos hcond]
        simp only [Bool.and_eq_true, decide_eq_true_eq] at hcond
        have hall : ∀ x ∈ c :: cs, isJsWs x = true := by
          intro x hx
          rcases List.mem_cons.mp hx with h1 | h1
          · subst h1
            exact hcond.2
          · exact dTW_nil_allWs cs hcond.1 x h1
        rw [gcTail_allWs _ hall, goodCount_allWs _ hall]
        exact ⟨Nat.le_refl _, Nat.le_refl _⟩
      · rw [if_neg hcond]
        have hsbR : startsBN cs = true →
            startsBN (dropTrailingWs cs) = true :=
          fun h => startsBN_of_consPres dropTrailingWs
            (fun a as ha => dTW_consPres a as ha) cs h
        have hgc1 : gcTail (c :: cs) ≤ gcTail (c :: dropTrailingWs cs) :=
          gcTail_cons_le c cs _ ih.1 hsbR
        have hsbpres : startsBN (c :: cs) = true →
            startsBN (c :: dropTrailingWs cs) = true := by
          intro h
          have hx := startsBN_of_consPres dropTrailingWs
            (fun a as ha => dTW_consPres a as ha) (c :: cs) h
          rw [dropTrailingWs_cons, if_neg hcond] at hx
          exact hx
        exact ⟨hgc1, goodCount_le_of _ _ hgc1 hsbpres⟩

theorem expand_master : ∀ (l : List Char),
    gcTail l ≤ gcTail (expandNewlines l) ∧
    goodCount l ≤ goodCount (expandNewlines l) := by
  intro l
  induction l with
  | nil => exact ⟨Nat.le_refl _, Nat.le_refl _⟩
  | cons c cs ih =>
      have hsbR : startsBN cs = true →
          startsBN (expandNewlines cs) = true :=
        fun h => startsBN_of_consPres expandNewlines
          (fun a as ha => expand_consPres a as ha) cs h
      rw [expandNewlines_cons]
      by_cases hc : c = '\n'
      · rw [if_pos hc]
        subst hc
        have hgcin : gcTail ('\n' :: cs)
            = (if startsBN cs = true then 1 else 0) + gcTail cs := by
          rw [gcTail_cons]
          simp
        have hgcout : gcTail (' ' :: '\n' :: expandNewlines cs)
            = (if startsBN (expandNewlines cs) = true then 1 else 0)
              + gcTail (expandNewlines cs) := by
          rw [gcTail_cons ' ' ('\n' :: expandNewlines cs),
            gcTail_cons '\n' (expandNewlines cs)]
          simp
        have hif : (if startsBN cs = true then 1 else 0)
            ≤ (if startsBN (expandNewlines cs) = true then 1 else 0) := by
          by_cases hsb : startsBN cs = true
          · rw [if_pos hsb, if_pos (hsbR hsb)]
          · rw [if_neg hsb]
            exact Nat.zero_le _
        constructor
        · rw [hgcin, hgcout]
          omega
        · have hin : goodCount ('\n' :: cs) = gcTail ('\n' :: cs) := by
            unfold goodCount
            rw [startsBN_ws_head '\n' cs (by decide)]
            simp
          have hout : goodCount (' ' :: '\n' :: expandNewlines cs)
              = gcTail (' ' :: '\n' :: expandNewlines cs) := by
            unfold goodCount
            rw [startsBN_ws_head ' ' _ (by decide)]
            simp
          rw [hin, hout, hgcin, hgcout]
          omega
      · rw [if_neg hc]
        have hgc1 : gcTail (c :: cs) ≤ gcTail (c :: expandNewlines cs) :=
          gcTail_cons_le c cs _ ih.1 hsbR
        have hsbpres : startsBN (c :: cs) = true →
            startsBN (c :: expandNewlines cs) = true := by
          intro h
          have hx := startsBN_of_consPres expandNewlines
            (fun a as ha => expand_consPres a as ha) (c :: cs) h
          rw [expandNewlines_cons, if_neg hc] at hx
          exact hx
        exact ⟨hgc1, goodCount_le_of _ _ hgc1 hsbpres⟩

theorem jsTrim_good (l : List Char) :
    goodCount l ≤ goodCount (jsTrim l) := by
  unfold jsTrim
  have h1 := dropWhileWs_good l
  have h2 := (dTW_master (l.dropWhile isJsWs)).2
  omega

/-! ## Walker-state lemmas -/

theorem str_empty_iff (s : String) : s = "" ↔ s.data = [] := by
  constructor
  · intro h
    rw [h]
  · intro h
    cases s
    simp at h
    rw [h]

theorem jData_mk (chunks : List String) (strip : Bool) :
    jData ⟨chunks, strip⟩ = (joinRev chunks).data := rfl

theorem joinRev_data_cons (c : String) (cs : List String) :
    (joinRev (c :: cs)).data = (joinRev cs).data ++ c.data := by
  show (joinRev cs ++ c).data = _
  exact String.data_append _ _

theorem endsWithNl_iff (s : String) :
    endsWithNl s = true ↔ s.data.getLast? = some '\n' := by
  unfold endsWithNl
  cases h : s.data.getLast? with
  | none => simp [h]
  | some c => simp

theorem ensureSpace_nil (strip : Bool) :
    ensureSpace ⟨[], strip⟩ = ⟨[], strip⟩ := rfl

theorem ensureSpace_mk (strip : Bool) (last : String) (rest : List String) :
    ensureSpace ⟨last :: rest, strip⟩
      = if (decide ¬(last = "") && !endsWithWs last) = true
        then ⟨(last ++ " ") :: rest, strip⟩ else ⟨last :: rest, strip⟩ := rfl

theorem ensureNewline_nil (strip : Bool) :
    ensureNewline ⟨[], strip⟩ = ⟨[], strip⟩ := rfl

theorem ensureNewline_mk (strip : Bool) (last : String) (rest : List String) :
    ensureNewline ⟨last :: rest, strip⟩
      = if (decide ¬(last = "") && !endsWithNl last) = true
        then ⟨(last ++ "\n") :: rest, strip⟩ else ⟨last :: rest, strip⟩ := rfl

theorem ensureSpace_spec (s : FlattenState) (h : chunksOk s) :
    chunksOk (ensureSpace s) ∧
    goodCount (jData s) ≤ goodCount (jData (ensureSpace s)) := by
  obtain ⟨chunks, strip⟩ := s
  cases chunks with
  | nil =>
      rw [ensureSpace_nil]
      exact ⟨h, Nat.le_refl _⟩
  | cons last rest =>
      rw [ensureSpace_mk]
      by_cases hcnd : (decide ¬(last = "") && !endsWithWs last) = true
      · rw [if_pos hcnd]
        constructor
        · intro c hc
          rcases List.mem_cons.mp hc with h1 | h1
          · subst h1
            intro hx
            rw [str_empty_iff, String.data_append] at hx
            simp at hx
          · exact h c (List.mem_cons_of_mem last h1)
        · rw [jData_mk, jData_mk, joinRev_data_cons, joinRev_data_cons,
            String.data_append]
          rw [← List.append_assoc]
          exact goodCount_append_mono _ _
      · rw [if_neg hcnd]
        exact ⟨h, Nat.le_refl _⟩

theorem ensureNewline_spec (s : FlattenState) (h : chunksOk s) :
    chunksOk (ensureNewline s) ∧
    goodCount (jData s) ≤ goodCount (jData (ensureNewline s)) ∧
    (jData (ensureNewline s) = [] ∨
      (jData (ensureNewline s)).getLast? = some '\n') := by
  obtain ⟨chunks, strip⟩ := s
  cases chunks with
  | nil =>
      rw [ensureNewline_nil]
      exact ⟨h, Nat.le_refl _, Or.inl rfl⟩
  | cons last rest =>
      have hlast : last ≠ "" := h last (List.mem_cons_self last rest)
      rw [ensureNewline_mk]
      by_cases hcnd : (decide ¬(last = "") && !endsWithNl last) = true
      · rw [if_pos hcnd]
        refine ⟨?_, ?_, Or.inr ?_⟩
        · intro c hc
          rcases List.mem_cons.mp hc with h1 | h1
          · subst h1
            intro hx
            rw [str_empty_iff, String.data_append] at hx
            simp at hx
          · exact h c (List.mem_cons_of_mem last h1)
        · rw [jData_mk, jData_mk, joinRev_data_cons, joinRev_data_cons,
            String.data_append]
          rw [← List.append_assoc]
          exact goodCount_append_mono _ _
        · rw [jData_mk, joinRev_data_cons, String.data_append]
          have hd : ("\n" : String).data = ['\n'] := rfl
          rw [hd, ← List.append_assoc]
          exact List.getLast?_concat _
      · rw [if_neg hcnd]
        refine ⟨h, Nat.le_refl _, Or.inr ?_⟩
        have hnl : endsWithNl last = true := by
          rcases hx : endsWithNl last with _ | _
          · exfalso
            apply hcnd
            rw [hx]
            simp [hlast]
          · rfl
        rw [jData_mk, joinRev_data_cons]
        have hne : last.data ≠ [] := by
          intro hx
          exact hlast ((str_empty_iff last).mpr hx)
        rw [List.getLast?_append_of_ne_nil _ hne]
        exact (endsWithNl_iff last).mp hnl

theorem pushText_eq (s : FlattenState) (t : String) (h : ¬ t = "") :
    pushText s t
      = { chunks := if pushedChunk s t = "" then s.chunks
                    else pushedChunk s t :: s.chunks,
          strip := false } := by
  unfold pushText pushedChunk
  rw [if_neg h]

theorem pushText_spec (s : FlattenState) (h : chunksOk s) (t : String) :
    chunksOk (pushText s t) ∧
    goodCount (jData s) ≤ goodCount (jData (pushText s t)) := by
  by_cases ht : t = ""
  · unfold pushText
    rw [if_pos ht]
    exact ⟨h, Nat.le_refl _⟩
  · rw [pushText_eq s t ht]
    by_cases hc2 : pushedChunk s t = ""
    · rw [if_pos hc2]
      exact ⟨h, Nat.le_refl _⟩
    · rw [if_neg hc2]
      constructor
      · intro c hc
        rcases List.mem_cons.mp hc with h1 | h1
        · subst h1
          exact hc2
        · exact h c h1
      · obtain ⟨chunks, strip⟩ := s
        rw [jData_mk, jData_mk, joinRev_data_cons]
        exact goodCount_append_mono _ _

theorem stripPilcrow_lbracket (X : List Char) :
    stripPilcrow ('[' :: X) = '[' :: X := by
  unfold stripPilcrow
  rw [List.dropWhile_cons]
  have h : isJsWs '[' = false := by decide
  rw [h]
  simp

theorem stripLeadingDigits_lbracket (X : List Char) :
    stripLeadingDigits ('[' :: X) = '[' :: X := by
  unfold stripLeadingDigits
  rw [List.dropWhile_cons]
  have h : isJsWs '[' = false := by decide
  rw [h]
  simp only [Bool.false_eq_true, if_false, List.head?_cons]
  have h2 : (some '[').any isDigitCh = false := by decide
  rw [h2]
  simp

theorem bracket_chunk_data (n : String) :
    ("[" ++ n ++ "] ").data = '[' :: (n.data ++ (']' :: [' '])) := by
  rw [String.data_append, String.data_append]
  have h1 : ("[" : String).data = ['['] := rfl
  have h2 : ("] " : String).data = [']', ' '] := rfl
  rw [h1, h2]
  simp

theorem pushedChunk_bracket (s : FlattenState) (n : String) :
    pushedChunk s ("[" ++ n ++ "] ") = "[" ++ n ++ "] " := by
  unfold pushedChunk
  rw [bracket_chunk_data, stripPilcrow_lbracket, stripLeadingDigits_lbracket]
  have hmk : String.mk ('[' :: (n.data ++ (']' :: [' '])))
      = "[" ++ n ++ "] " := by
    rw [show ("[" ++ n ++ "] ")
        = String.mk (("[" ++ n ++ "] ").data) from rfl, bracket_chunk_data]
  by_cases hs : s.strip = true
  · rw [if_pos hs, hmk]
  · rw [if_neg hs, hmk]

theorem bracket_chunk_ne_empty (n : String) : ¬ ("[" ++ n ++ "] ") = "" := by
  intro h
  rw [str_empty_iff, bracket_chunk_data] at h
  simp at h

theorem verseMarkerStep_spec (s : FlattenState) (h : chunksOk s) (n : String)
    (d : Char) (ds : List Char) (hn : n.data = d :: ds)
    (hd : isDigitCh d = true) (hds : ds.all isDigitCh = true) :
    chunksOk (verseMarkerStep true s n) ∧
    goodCount (jData s) + 1 ≤ goodCount (jData (verseMarkerStep true s n)) := by
  obtain ⟨hok1, hmono1, hends⟩ := ensureNewline_spec s h
  have hstep : verseMarkerStep true s n
      = { pushText (ensureNewline s) ("[" ++ n ++ "] ") with strip := true } :=
    rfl
  rw [hstep]
  have hpe := pushText_eq (ensureNewline s) ("[" ++ n ++ "] ")
    (bracket_chunk_ne_empty n)
  rw [pushedChunk_bracket] at hpe
  rw [if_neg (bracket_chunk_ne_empty n)] at hpe
  rw [hpe]
  have hok2 : chunksOk
      (⟨("[" ++ n ++ "] ") :: (ensureNewline s).chunks, true⟩ :
        FlattenState) := by
    intro c hc
    rcases List.mem_cons.mp hc with h1 | h1
    · subst h1
      exact bracket_chunk_ne_empty n
    · exact hok1 c h1
  constructor
  · intro c hc
    exact hok2 c hc
  · have hjd : jData (⟨("[" ++ n ++ "] ") :: (ensureNewline s).chunks,
        true⟩ : FlattenState)
        = jData (ensureNewline s) ++ ('[' :: d :: (ds ++ (']' :: [' ']))) := by
      obtain ⟨ch1, st1⟩ := ensureNewline s
      rw [jData_mk, joinRev_data_cons, bracket_chunk_data, hn, jData_mk]
      rfl
    show goodCount (jData s) + 1 ≤ goodCount
      (jData (⟨("[" ++ n ++ "] ") :: (ensureNewline s).chunks, true⟩ :
        FlattenState))
    rw [hjd]
    have hmark := goodCount_append_marker (jData (ensureNewline s)) hends
      d ds [' '] hd hds
    omega

/-! ## The walker accumulates one good line start per verse marker -/

theorem jsTruthy_some (o : Option String) (h : jsTruthy o = true) :
    ∃ str, o = some str ∧ ¬ str = "" := by
  cases o with
  | none => exact absurd h (by decide)
  | some str =>
      refine ⟨str, rfl, ?_⟩
      unfold jsTruthy at h
      simpa using h

theorem digits_decomp (n : String) (hne : ¬ n = "")
    (hall : n.data.all isDigitCh = true) :
    ∃ d ds, n.data = d :: ds ∧ isDigitCh d = true ∧
      ds.all isDigitCh = true := by
  cases hd : n.data with
  | nil => exact absurd ((str_empty_iff n).mpr hd) hne
  | cons d ds =>
      rw [hd] at hall
      simp only [List.all_cons, Bool.and_eq_true] at hall
      exact ⟨d, ds, rfl, hall.1, hall.2⟩

theorem walkNode_text (lbl : Bool) (s : FlattenState) (t : String) :
    walkNode lbl s (.text t) = pushText s t := rfl

theorem walkNode_tag (lbl : Bool) (s : FlattenState) (name : String)
    (number vid : Option String) (items : List CNode) :
    walkNode lbl s (.tag name number vid items)
      = walkList lbl
          (if (name = "verse" && jsTruthy number) = true then
            verseMarkerStep lbl
              (if (lbl && name = "para" && jsTruthy vid) = true
               then ensureSpace s else s)
              (number.getD "")
           else (if (lbl && name = "para" && jsTruthy vid) = true
               then ensureSpace s else s))
          items := rfl

theorem walkList_nil (lbl : Bool) (s : FlattenState) :
    walkList lbl s [] = s := rfl

theorem walkList_cons (lbl : Bool) (s : FlattenState) (n : CNode)
    (ns : List CNode) :
    walkList lbl s (n :: ns) = walkList lbl (walkNode lbl s n) ns := rfl

theorem countN_text (t : String) : countVerseMarkersN (.text t) = 0 := rfl

theorem countN_tag (name : String) (number vid : Option String)
    (items : List CNode) :
    countVerseMarkersN (.tag name number vid items)
      = (if (name = "verse" && jsTruthy number) = true then 1 else 0)
        + countVerseMarkersL items := rfl

theorem countL_nil : countVerseMarkersL [] = 0 := rfl

theorem countL_cons (n : CNode) (ns : List CNode) :
    countVerseMarkersL (n :: ns)
      = countVerseMarkersN n + countVerseMarkersL ns := rfl

theorem numbersOkN_tag (name : String) (number vid : Option String)
    (items : List CNode) :
    numbersOkN (.tag name number vid items)
      = ((if (name = "verse" && jsTruthy number) = true
          then (number.getD "").data.all isDigitCh else true)
         && numbersOkL items) := rfl

theorem numbersOkL_cons (n : CNode) (ns : List CNode) :
    numbersOkL (n :: ns) = (numbersOkN n && numbersOkL ns) := rfl

theorem walk_master :
    (∀ (s : FlattenState) (n : CNode),
      chunksOk s → numbersOkN n = true →
      chunksOk (walkNode true s n) ∧
      goodCount (jData s) + countVerseMarkersN n
        ≤ goodCount (jData (walkNode true s n))) ∧
    (∀ (s : FlattenState) (ns : List CNode),
      chunksOk s → numbersOkL ns = true →
      chunksOk (walkList true s ns) ∧
      goodCount (jData s) + countVerseMarkersL ns
        ≤ goodCount (jData (walkList true s ns))) := by
  apply walkNode.mutual_induct true
  · intro s t hok hnum
    rw [walkNode_text, countN_text]
    have hx := pushText_spec s hok t
    exact ⟨hx.1, by have h2 := hx.2; omega⟩
  · intro s name number vid items
    intro s1 s2 ih hok hnum
    have hs1 : s1 = if (true && name = "para" && jsTruthy vid) = true
        then ensureSpace s else s := rfl
    have hs2 : s2 = if (name = "verse" && jsTruthy number) = true
        then verseMarkerStep true s1 (number.getD "") else s1 := rfl
    rw [hs1] at hs2
    rw [hs2] at ih
    rw [walkNode_tag, countN_tag]
    rw [numbersOkN_tag] at hnum
    simp only [Bool.and_eq_true] at hnum
    have hA : chunksOk (if (true && name = "para" && jsTruthy vid) = true
          then ensureSpace s else s) ∧
        goodCount (jData s)
          ≤ goodCount (jData (if (true && name = "para" && jsTruthy vid)
              = true then ensureSpace s else s)) := by
      by_cases hc : (true && name = "para" && jsTruthy vid) = true
      · rw [if_pos hc]
        exact ensureSpace_spec s hok
      · rw [if_neg hc]
        exact ⟨hok, Nat.le_refl _⟩
    by_cases hv : (name = "verse" && jsTruthy number) = true
    · simp only [if_pos hv] at ih ⊢
      have hnum1 := hnum.1
      have hv2 : decide (name = "verse") = true ∧ jsTruthy number = true := by
        simpa [Bool.and_eq_true] using hv
      rw [if_pos hv2] at hnum1
      have htr : jsTruthy number = true := by
        simp only [Bool.and_eq_true] at hv
        exact hv.2
      obtain ⟨str, hsome, hne⟩ := jsTruthy_some number htr
      have hgetd : number.getD "" = str := by
        rw [hsome]
        rfl
      obtain ⟨d, ds, hnd, hd, hds⟩ := digits_decomp str hne
        (by rw [hgetd] at hnum1; exact hnum1)
      have hstep := verseMarkerStep_spec
        (if (true && name = "para" && jsTruthy vid) = true
         then ensureSpace s else s) hA.1 (number.getD "") d ds
        (by rw [hgetd]; exact hnd) hd hds
      have ihx := ih hstep.1 hnum.2
      refine ⟨ihx.1, ?_⟩
      have h1 := hA.2
      have h2 := hstep.2
      have h3 := ihx.2
      omega
    · simp only [if_neg hv] at ih ⊢
      have ihx := ih hA.1 hnum.2
      refine ⟨ihx.1, ?_⟩
      have h1 := hA.2
      have h3 := ihx.2
      omega
  · intro s hok _
    rw [walkList_nil, countL_nil]
    exact ⟨hok, by omega⟩
  · intro s n ns ih1 ih2 hok hnum
    rw [walkList_cons, countL_cons]
    rw [numbersOkL_cons] at hnum
    simp only [Bool.and_eq_true] at hnum
    have h1 := ih1 hok hnum.1
    have h2 := ih2 h1.1 hnum.2
    refine ⟨h2.1, ?_⟩
    have ha := h1.2
    have hb := h2.2
    omega

/-! ## Newline-separated segments count the good line starts -/

theorem moreRB_append_nl (x r : List Char) :
    moreDigitsThenRB (x ++ '\n' :: r) = moreDigitsThenRB x := by
  induction x with
  | nil => rfl
  | cons c cs ih =>
      show moreDigitsThenRB (c :: (cs ++ '\n' :: r)) = _
      rw [moreRB_cons, moreRB_cons]
      by_cases hc : c = ']'
      · rw [if_pos hc, if_pos hc]
      · rw [if_neg hc, if_neg hc]
        by_cases hd : isDigitCh c = true
        · rw [if_pos hd, if_pos hd, ih]
        · rw [if_neg hd, if_neg hd]

theorem digitsThenRB_append_nl (x r : List Char) :
    digitsThenRB (x ++ '\n' :: r) = digitsThenRB x := by
  cases x with
  | nil => rfl
  | cons c cs =>
      show digitsThenRB (c :: (cs ++ '\n' :: r)) = _
      rw [digitsThenRB_cons, digitsThenRB_cons]
      by_cases hd : isDigitCh c = true
      · rw [if_pos hd, if_pos hd, moreRB_append_nl]
      · rw [if_neg hd, if_neg hd]

theorem startsBN_append_nl (x r : List Char) :
    startsBN (x ++ '\n' :: r) = startsBN x := by
  cases x with
  | nil => rfl
  | cons c cs =>
      show startsBN (c :: (cs ++ '\n' :: r)) = _
      rw [startsBN_cons, startsBN_cons]
      by_cases hc : c = '['
      · rw [if_pos hc, if_pos hc, digitsThenRB_append_nl]
      · rw [if_neg hc, if_neg hc]

theorem splitNl_cons_eq (c : Char) (cs : List Char) :
    splitNl (c :: cs)
      = if c = '\n' then [] :: splitNl cs
        else match splitNl cs with
             | s :: ss => (c :: s) :: ss
             | [] => [[c]] := rfl

theorem splitNl_decomp : ∀ (l : List Char), ∃ s ss, splitNl l = s :: ss ∧
    (l = s ∨ ∃ r, l = s ++ '\n' :: r) := by
  intro l
  induction l with
  | nil => exact ⟨[], [], rfl, Or.inl rfl⟩
  | cons c cs ih =>
      by_cases hc : c = '\n'
      · subst hc
        refine ⟨[], splitNl cs, ?_, Or.inr ⟨cs, rfl⟩⟩
        rw [splitNl_cons_eq, if_pos rfl]
      · obtain ⟨s, ss, heq, hdis⟩ := ih
        refine ⟨c :: s, ss, ?_, ?_⟩
        · rw [splitNl_cons_eq, if_neg hc, heq]
        · rcases hdis with h1 | ⟨r, h1⟩
          · exact Or.inl (by rw [h1])
          · exact Or.inr ⟨r, by rw [h1]; rfl⟩

theorem splitNl_goodCount : ∀ (l : List Char),
    ((splitNl l).filter startsBN).length = goodCount l := by
  intro l
  induction l with
  | nil => rfl
  | cons c cs ih =>
      by_cases hc : c = '\n'
      · subst hc
        rw [splitNl_cons_eq, if_pos rfl, List.filter_cons]
        rw [if_neg (by rw [startsBN_nil]; simp)]
        rw [ih]
        unfold goodCount
        rw [startsBN_ws_head '\n' cs (by decide), gcTail_cons]
        simp
      · obtain ⟨s, ss, heq, hdis⟩ := splitNl_decomp cs
        have heq2 : splitNl (c :: cs) = (c :: s) :: ss := by
          rw [splitNl_cons_eq, if_neg hc, heq]
        have hsb1 : startsBN (c :: cs) = startsBN (c :: s) := by
          rcases hdis with h1 | ⟨r, h1⟩
          · rw [h1]
          · rw [h1]
            show startsBN ((c :: s) ++ '\n' :: r) = _
            exact startsBN_append_nl (c :: s) r
        have hsb2 : startsBN cs = startsBN s := by
          rcases hdis with h1 | ⟨r, h1⟩
          · rw [h1]
          · rw [h1]
            exact startsBN_append_nl s r
        have hih : ((splitNl cs).filter startsBN).length = goodCount cs := ih
        rw [heq] at hih
        rw [List.filter_cons] at hih
        rw [heq2, List.filter_cons]
        have hgcs : gcTail (c :: cs) = gcTail cs := by
          rw [gcTail_cons]
          simp [hc]
        have hgood1 : goodCount (c :: cs)
            = (if startsBN (c :: s) = true then 1 else 0) + gcTail cs := by
          unfold goodCount
          rw [hsb1, hgcs]
        have hgood2 : goodCount cs
            = (if startsBN s = true then 1 else 0) + gcTail cs := by
          unfold goodCount
          rw [hsb2]
        have hihlen : (if startsBN s = true then s :: List.filter startsBN ss
            else List.filter startsBN ss).length
            = (if startsBN s = true then 1 else 0)
              + (List.filter startsBN ss).length := by
          by_cases hs : startsBN s = true
          · rw [if_pos hs, if_pos hs, List.length_cons]
            omega
          · rw [if_neg hs, if_neg hs]
            omega
        rw [hihlen, hgood2] at hih
        have hglen : (if startsBN (c :: s) = true
            then (c :: s) :: List.filter startsBN ss
            else List.filter startsBN ss).length
            = (if startsBN (c :: s) = true then 1 else 0)
              + (List.filter startsBN ss).length := by
          by_cases hcs2 : startsBN (c :: s) = true
          · rw [if_pos hcs2, if_pos hcs2, List.length_cons]
            omega
          · rw [if_neg hcs2, if_neg hcs2]
            omega
        rw [hglen, hgood1]
        omega

theorem goodSegmentCount_mk (l : List Char) :
    goodSegmentCount (String.mk l) = goodCount l := by
  unfold goodSegmentCount
  exact splitNl_goodCount l

theorem expandNewlines_ne_nil (c : Char) (cs : List Char) :
    ¬ expandNewlines (c :: cs) = [] := by
  rw [expandNewlines_cons]
  by_cases hc : c = '\n'
  · rw [if_pos hc]
    simp
  · rw [if_neg hc]
    simp

/-- **C4**: for every document tree with `N` verse markers (each carrying a
numeric attribute, as the backend's `DisplayDocumentTree` invariant
guarantees), `passageContentToText` with `lineByLine = true` produces at
least `N` newline-separated segments beginning with a bracketed verse
number of the form `[<number>]`. -/
theorem c4_line_by_line_segments :
    ∀ (nodes : List CNode), numbersOkL nodes = true →
      countVerseMarkersL nodes
        ≤ goodSegmentCount (passageContentToText (some nodes) true) := by
  intro nodes hnum
  have hwalk := walk_master.2 ⟨[], false⟩ nodes
    (fun c hc => absurd hc (List.not_mem_nil c)) hnum
  have hinit : goodCount (jData (⟨[], false⟩ : FlattenState)) = 0 := rfl
  have hcount : countVerseMarkersL nodes
      ≤ goodCount (jData (walkList true ⟨[], false⟩ nodes)) := by
    have h2 := hwalk.2
    omega
  have h1 := collapseSpaceRuns_good (jData (walkList true ⟨[], false⟩ nodes))
  have h2 := collapseNewlineRuns_good
    (collapseSpaceRuns (jData (walkList true ⟨[], false⟩ nodes)))
  have h3 := jsTrim_good (collapseNewlineRuns
    (collapseSpaceRuns (jData (walkList true ⟨[], false⟩ nodes))))
  have hform : ∀ (x3 : List Char),
      x3 = jsTrim (collapseNewlineRuns (collapseSpaceRuns
        (jData (walkList true ⟨[], false⟩ nodes)))) →
      passageContentToText (some nodes) true
        = (if (if (true && decide ¬(x3 = [])) = true
               then expandNewlines x3 else x3) = []
           then ""
           else String.mk ((if (true && decide ¬(x3 = [])) = true
               then expandNewlines x3 else x3) ++ [' '])) := by
    intro x3 hx
    subst hx
    rfl
  rw [hform _ rfl]
  by_cases h3nil : jsTrim (collapseNewlineRuns (collapseSpaceRuns
      (jData (walkList true ⟨[], false⟩ nodes)))) = []
  · have hc0 : goodCount (jsTrim (collapseNewlineRuns (collapseSpaceRuns
        (jData (walkList true ⟨[], false⟩ nodes))))) = 0 := by
      rw [h3nil]
      rfl
    have hz : countVerseMarkersL nodes = 0 := by omega
    rw [hz]
    exact Nat.zero_le _
  · have hcnd : (true && decide ¬(jsTrim (collapseNewlineRuns
        (collapseSpaceRuns (jData (walkList true ⟨[], false⟩ nodes)))) = []))
        = true := by
      simp [h3nil]
    rw [if_pos hcnd]
    have h4 := (expand_master (jsTrim (collapseNewlineRuns (collapseSpaceRuns
      (jData (walkList true ⟨[], false⟩ nodes)))))).2
    have h5 := goodCount_append_mono (expandNewlines
      (jsTrim (collapseNewlineRuns (collapseSpaceRuns
        (jData (walkList true ⟨[], false⟩ nodes)))))) [' ']
    by_cases henil : expandNewlines (jsTrim (collapseNewlineRuns
        (collapseSpaceRuns (jData (walkList true ⟨[], false⟩ nodes))))) = []
    · exfalso
      rcases hx : jsTrim (collapseNewlineRuns (collapseSpaceRuns
          (jData (walkList true ⟨[], false⟩ nodes)))) with _ | ⟨c, cs⟩
      · exact h3nil hx
      · rw [hx] at henil
        exact expandNewlines_ne_nil c cs henil
    · rw [if_neg henil, goodSegmentCount_mk]
      omega

/-- Witness for C4: a two-verse poetic paragraph yields at least two
newline-separated `[<number>]` segments. -/
theorem c4_line_by_line_segments_witness :
    2 ≤ goodSegmentCount (passageContentToText
      (some [CNode.tag "para" none (some "PSA.23.1")
        [CNode.tag "verse" (some "1") none [],
         CNode.text "The Lord is my shepherd",
         CNode.tag "verse" (some "2") none [],
         CNode.text "2 He makes me lie down"]]) true) := by
  have h := c4_line_by_line_segments
    [CNode.tag "para" none (some "PSA.23.1")
      [CNode.tag "verse" (some "1") none [],
       CNode.text "The Lord is my shepherd",
       CNode.tag "verse" (some "2") none [],
       CNode.text "2 He makes me lie down"]] (by decide)
  have hc : countVerseMarkersL
      [CNode.tag "para" none (some "PSA.23.1")
        [CNode.tag "verse" (some "1") none [],
         CNode.text "The Lord is my shepherd",
         CNode.tag "verse" (some "2") none [],
         CNode.text "2 He makes me lie down"]] = 2 := by decide
  omega

end Scriptura
